import Mathlib

/-!
Verification development for the news-collection core of this repository
(`src/fetchers.py`, `src/utils.py`, `src/parser.py`, `main.py`).

The Python code is shallowly embedded: strings are `String`/`List Char`,
dictionaries are association lists, the mutable per-source diagnostics dict
is an explicit record, and the network / HTML-parsing / date-parsing
libraries that the code calls (`requests`, `feedparser`, `BeautifulSoup`,
`RobotFileParser`, `datetime`) are abstracted as explicit environment
functions, while everything the repository itself implements is translated
function by function.  Python exceptions are modelled with `Except`.
-/

set_option maxRecDepth 40000

/-! ## Python string primitives (`str.split`, `str.rstrip`, `" ".join`) -/

/-- Python whitespace for `str.split()` / `str.strip()` (ASCII range). -/
def isPyWs (c : Char) : Bool :=
  c = ' ' || c = '\t' || c = '\n' || c = '\r' || c = '\x0b' || c = '\x0c'

/-- Accumulator pass behind `pySplit`; `acc` holds the current word reversed. -/
def pySplitAux : List Char → List Char → List (List Char)
  | [], acc => if acc = [] then [] else [acc.reverse]
  | c :: cs, acc =>
    if isPyWs c then
      if acc = [] then pySplitAux cs [] else acc.reverse :: pySplitAux cs []
    else pySplitAux cs (c :: acc)

/-- Python `text.split()`: maximal runs of non-whitespace characters. -/
def pySplit (s : List Char) : List (List Char) := pySplitAux s []

/-- Python `" ".join(pieces)`. -/
def joinSp : List (List Char) → List Char
  | [] => []
  | [p] => p
  | p :: q :: ps => p ++ ' ' :: joinSp (q :: ps)

/-- Python `text.rstrip()` (drop trailing whitespace). -/
def rstripWs : List Char → List Char
  | [] => []
  | c :: cs =>
    let r := rstripWs cs
    if r = [] ∧ isPyWs c then [] else c :: r

/-- Python `text.strip()` (drop leading and trailing whitespace). -/
def stripWs (s : List Char) : List Char :=
  rstripWs (s.dropWhile isPyWs)

/-- utils.safe_excerpt, list level:
`compact = " ".join((text or "").split())` and
`return compact if len(compact) <= max_chars else compact[: max_chars - 3].rstrip() + "..."`. -/
def safeExcerptL (text : List Char) (maxChars : Nat) : List Char :=
  let compact := joinSp (pySplit text)
  if compact.length ≤ maxChars then compact
  else rstripWs (compact.take (maxChars - 3)) ++ ['.', '.', '.']

/-- utils.safe_excerpt on `String` (the source defaults `max_chars` to 300). -/
def safe_excerpt (text : String) (maxChars : Nat) : String :=
  ⟨safeExcerptL text.toList maxChars⟩


/-! ## Facts about the excerpt primitives -/

/-- Two adjacent characters are never both whitespace. -/
def noWsPair (a b : Char) : Prop := ¬(isPyWs a = true ∧ isPyWs b = true)

instance : DecidableRel noWsPair := fun a b => by unfold noWsPair; infer_instance

theorem pySplitAux_good : ∀ (cs acc : List Char), (∀ c ∈ acc, isPyWs c = false) →
    ∀ p ∈ pySplitAux cs acc, p ≠ [] ∧ ∀ c ∈ p, isPyWs c = false := by
  intro cs
  induction cs with
  | nil =>
    intro acc hacc p hp
    by_cases h : acc = []
    · simp [pySplitAux, h] at hp
    · rw [pySplitAux, if_neg h] at hp
      rcases List.mem_singleton.mp hp with rfl
      refine ⟨by simpa using h, ?_⟩
      intro c hc; exact hacc c (List.mem_reverse.mp hc)
  | cons c cs ih =>
    intro acc hacc p hp
    rw [pySplitAux] at hp
    by_cases hw : isPyWs c
    · rw [if_pos hw] at hp
      by_cases he : acc = []
      · rw [if_pos he] at hp
        exact ih [] (by simp) p hp
      · rw [if_neg he] at hp
        rcases List.mem_cons.mp hp with rfl | h
        · refine ⟨by simpa using he, ?_⟩
          intro d hd; exact hacc d (List.mem_reverse.mp hd)
        · exact ih [] (by simp) p h
    · rw [if_neg hw] at hp
      refine ih (c :: acc) ?_ p hp
      intro d hd
      rcases List.mem_cons.mp hd with rfl | h
      · simpa using hw
      · exact hacc d h

theorem pySplit_good (s : List Char) :
    ∀ p ∈ pySplit s, p ≠ [] ∧ ∀ c ∈ p, isPyWs c = false :=
  pySplitAux_good s [] (by simp)

theorem joinSp_head : ∀ (p : List Char) (ps : List (List Char)), p ≠ [] →
    (joinSp (p :: ps)).head? = p.head? := by
  intro p ps hp
  match ps with
  | [] => rfl
  | q :: qs =>
    match p, hp with
    | c :: p, _ => rfl

theorem joinSp_ne_nil (p : List Char) (ps : List (List Char)) (hp : p ≠ []) :
    joinSp (p :: ps) ≠ [] := by
  intro h
  have := joinSp_head p ps hp
  rw [h] at this
  match p, hp with
  | c :: p, _ => simp at this

theorem chain_of_all_nonWs : ∀ l : List Char, (∀ c ∈ l, isPyWs c = false) →
    List.Chain' noWsPair l := by
  intro l
  induction l with
  | nil => intro _; exact List.chain'_nil
  | cons x l ih =>
    intro h
    match l with
    | [] => exact List.chain'_singleton x
    | y :: l2 =>
      refine List.chain'_cons.mpr ⟨?_, ih ?_⟩
      · intro ⟨hx, _⟩
        rw [h x (by simp)] at hx
        cases hx
      · intro c hc; exact h c (by simp [hc])

theorem mem_of_getLast_opt : ∀ (l : List Char) (c : Char), l.getLast? = some c → c ∈ l := by
  intro l
  induction l with
  | nil => intro c h; simp at h
  | cons x xs ih =>
    intro c h
    match xs, ih with
    | [], _ =>
      simp at h
      simp [h]
    | y :: ys, ih =>
      rw [List.getLast?_cons_cons] at h
      exact List.mem_cons_of_mem x (ih c h)

theorem chain_append_left {R : Char → Char → Prop} {a b : List Char}
    (h : List.Chain' R (a ++ b)) : List.Chain' R a :=
  (List.chain'_append.mp h).1

theorem joinSp_chain : ∀ ps : List (List Char),
    (∀ p ∈ ps, p ≠ [] ∧ ∀ c ∈ p, isPyWs c = false) →
    List.Chain' noWsPair (joinSp ps) := by
  intro ps
  induction ps with
  | nil => intro _; exact List.chain'_nil
  | cons p ps ih =>
    intro h
    match ps with
    | [] => exact chain_of_all_nonWs p (h p (by simp)).2
    | q :: qs =>
      show List.Chain' noWsPair (p ++ ' ' :: joinSp (q :: qs))
      have hq := h q (by simp)
      have hrest : List.Chain' noWsPair (joinSp (q :: qs)) := by
        refine ih ?_
        intro r hr; exact h r (by simp [hr])
      refine List.chain'_append.mpr ⟨chain_of_all_nonWs p (h p (by simp)).2, ?_, ?_⟩
      · refine List.chain'_cons'.mpr ⟨?_, hrest⟩
        intro y hy
        rw [joinSp_head q qs hq.1] at hy
        intro ⟨_, hy2⟩
        have : y ∈ q := by
          match q, hq.1 with
          | c :: q2, _ => simp at hy; simp [hy]
        rw [hq.2 y this] at hy2
        cases hy2
      · intro x hx y hy
        simp at hy
        intro ⟨hx2, hy2⟩
        have hxp : x ∈ p := mem_of_getLast_opt p x (Option.mem_def.mp hx)
        rw [(h p (by simp)).2 x hxp] at hx2
        cases hx2

theorem rstripWs_pref : ∀ l : List Char, ∃ t, rstripWs l ++ t = l := by
  intro l
  induction l with
  | nil => exact ⟨[], rfl⟩
  | cons c cs ih =>
    rw [rstripWs]
    by_cases h : rstripWs cs = [] ∧ isPyWs c
    · exact ⟨c :: cs, by simp [h]⟩
    · obtain ⟨t, ht⟩ := ih
      exact ⟨t, by simp [h, ht]⟩

theorem rstripWs_length_le (l : List Char) : (rstripWs l).length ≤ l.length := by
  obtain ⟨t, ht⟩ := rstripWs_pref l
  calc (rstripWs l).length ≤ (rstripWs l).length + t.length := Nat.le_add_right _ _
    _ = l.length := by rw [← List.length_append, ht]

theorem rstripWs_last_not_ws : ∀ (l : List Char) (c : Char),
    (rstripWs l).getLast? = some c → isPyWs c = false := by
  intro l
  induction l with
  | nil => intro c h; simp [rstripWs] at h
  | cons d cs ih =>
    intro c h
    rw [rstripWs] at h
    by_cases hc : rstripWs cs = [] ∧ isPyWs d
    · rw [if_pos hc] at h; simp at h
    · rw [if_neg hc] at h
      by_cases he : rstripWs cs = []
      · rw [he] at h
        simp at h
        have : ¬ isPyWs d := fun hw => hc ⟨he, hw⟩
        simp [← h, this]
      · match hrw : rstripWs cs, he with
        | x :: xs, _ =>
          rw [hrw, List.getLast?_cons_cons] at h
          exact ih c (hrw ▸ h)

/-- C10 counterexample: an input of 301 spaces is longer than the default
bound of 300, yet the result is the empty string: it is not truncated text
ending in three dots, contradicting the claim for this input. -/
theorem claimC10_counterexample :
    safe_excerpt (String.mk (List.replicate 301 ' ')) 300 = "" ∧
    300 < (String.mk (List.replicate 301 ' ')).length ∧
    (safe_excerpt (String.mk (List.replicate 301 ' ')) 300).toList.reverse.take 3 ≠
      ['.', '.', '.'] :=
  ⟨by decide, by decide, by decide⟩

/-- C10 (amended): safe_excerpt with the default bound 300 always returns at
most 300 characters with no two adjacent whitespace characters (whitespace
runs collapsed), and whenever the whitespace-collapsed form of the input is
longer than the bound the result is truncated and ends with "..."; an input
that is longer than the bound only by virtue of collapsible whitespace is
returned collapsed, without the "..." marker. -/
theorem claimC10_theorem (s : String) :
    (safe_excerpt s 300).length ≤ 300 ∧
    List.Chain' noWsPair (safe_excerpt s 300).toList ∧
    (300 < (joinSp (pySplit s.toList)).length →
      (safe_excerpt s 300).toList.reverse.take 3 = ['.', '.', '.']) := by
  have hgood := pySplit_good s.toList
  have hchain : List.Chain' noWsPair (joinSp (pySplit s.toList)) := joinSp_chain _ hgood
  unfold safe_excerpt safeExcerptL
  by_cases hle : (joinSp (pySplit s.toList)).length ≤ 300
  · simp only [if_pos hle]
    exact ⟨hle, hchain, fun h => absurd hle (by omega)⟩
  · simp only [if_neg hle]
    have hr := rstripWs_length_le ((joinSp (pySplit s.toList)).take (300 - 3))
    have htk : ((joinSp (pySplit s.toList)).take (300 - 3)).length ≤ 297 := by
      simp [List.length_take]
    refine ⟨?_, ?_, ?_⟩
    · show (rstripWs ((joinSp (pySplit s.toList)).take (300 - 3)) ++
        ['.', '.', '.']).length ≤ 300
      rw [List.length_append]
      simp only [List.length_cons, List.length_nil]
      omega
    · show List.Chain' noWsPair (rstripWs ((joinSp (pySplit s.toList)).take (300 - 3)) ++
        ['.', '.', '.'])
      refine List.chain'_append.mpr ⟨?_, ?_, ?_⟩
      · obtain ⟨t1, ht1⟩ := rstripWs_pref ((joinSp (pySplit s.toList)).take (300 - 3))
        have heq : rstripWs ((joinSp (pySplit s.toList)).take (300 - 3)) ++
            (t1 ++ (joinSp (pySplit s.toList)).drop (300 - 3)) = joinSp (pySplit s.toList) := by
          rw [← List.append_assoc, ht1, List.take_append_drop]
        exact chain_append_left (heq ▸ hchain)
      · exact chain_of_all_nonWs _ (by decide)
      · intro x hx y _
        have hnw := rstripWs_last_not_ws _ x (Option.mem_def.mp hx)
        intro ⟨h1, _⟩
        rw [hnw] at h1
        cases h1
    · intro _
      show ((rstripWs ((joinSp (pySplit s.toList)).take (300 - 3)) ++
        ['.', '.', '.']).reverse).take 3 = ['.', '.', '.']
      rw [List.reverse_append]
      rfl

/-- C10 witness: a 310-character input collapses to itself, exceeds the
bound, and the theorem yields the length bound and the "..." suffix. -/
theorem claimC10_witness :
    (safe_excerpt (String.mk (List.replicate 310 'a')) 300).length ≤ 300 ∧
    (safe_excerpt (String.mk (List.replicate 310 'a')) 300).toList.reverse.take 3 =
      ['.', '.', '.'] :=
  ⟨(claimC10_theorem (String.mk (List.replicate 310 'a'))).1,
   (claimC10_theorem (String.mk (List.replicate 310 'a'))).2.2 (by decide)⟩

/-! ## urllib.parse (CPython 3.11) — the parts the repository uses -/

/-- C0 control characters and space; `urlsplit` strips these on the left. -/
def isC0OrSpace (c : Char) : Bool := c.val ≤ 32

/-- Tab, CR and LF are removed anywhere in the URL by `urlsplit`. -/
def isUnsafeUrlChar (c : Char) : Bool := c = '\t' || c = '\r' || c = '\n'

def removeUnsafe (s : List Char) : List Char := s.filter (fun c => !isUnsafeUrlChar c)

def lstripC0 (s : List Char) : List Char := s.dropWhile isC0OrSpace

/-- ASCII lowercasing, modelling `str.lower` on the URLs the program handles. -/
def pyLower (c : Char) : Char :=
  if 'A' ≤ c ∧ c ≤ 'Z' then Char.ofNat (c.toNat + 32) else c

def lowerL (s : List Char) : List Char := s.map pyLower

/-- Characters allowed in a URL scheme (`urllib.parse.scheme_chars`). -/
def isSchemeChar (c : Char) : Bool :=
  c.isAlpha || c.isDigit || c = '+' || c = '-' || c = '.'

/-- Scan to the first ':'; `some (before, after)` when every character before
it is a scheme character, `none` otherwise or when there is no colon. -/
def schemeScan : List Char → Option (List Char × List Char)
  | [] => none
  | c :: cs =>
    if c = ':' then some ([], cs)
    else if isSchemeChar c then (schemeScan cs).map (fun p => (c :: p.1, p.2))
    else none

/-- The scheme split of `urlsplit`: `i = url.find(':')` accepted when `i > 0`,
`url[0]` is an ASCII letter and all of `url[:i]` are scheme characters; the
scheme is lowercased and the rest of the URL is returned unchanged. -/
def splitScheme (url : List Char) : List Char × List Char :=
  match url with
  | [] => ([], [])
  | c :: _ =>
    if c.isAlpha then
      match schemeScan url with
      | some (sch, rest) => (lowerL sch, rest)
      | none => ([], url)
    else ([], url)

/-- `_splitnetloc`: the authority runs to the first of `/`, `?`, `#`. -/
def netlocScan : List Char → List Char × List Char
  | [] => ([], [])
  | c :: cs =>
    if c = '/' || c = '?' || c = '#' then ([], c :: cs)
    else
      let p := netlocScan cs
      (c :: p.1, p.2)

/-- Split at the first occurrence of `ch`; when `ch` is absent this returns
the whole input and an empty tail, exactly the observable effect of the
guarded `if ch in url: url, rest = url.split(ch, 1)` steps of `urlsplit`. -/
def splitOnFirst (ch : Char) : List Char → List Char × List Char
  | [] => ([], [])
  | c :: cs =>
    if c = ch then ([], cs)
    else
      let p := splitOnFirst ch cs
      (c :: p.1, p.2)

structure SplitRes where
  scheme : List Char
  netloc : List Char
  path : List Char
  query : List Char
  fragment : List Char
deriving Repr, DecidableEq

/-- urllib.parse.urlsplit (CPython 3.11).  `Except.error` is the
`ValueError` raised on a mismatched-bracket authority ("Invalid IPv6 URL").
Two validations are modelled conservatively as errors: a bracketed
authority (the real code accepts only valid IPv6/IPvFuture literals there)
and a non-ASCII authority (the real code rejects the subset whose NFKC
normalization introduces delimiters); the model thus accepts fewer URLs but
never gives a different result on an accepted one. -/
def pyUrlsplit (url0 : List Char) : Except Unit SplitRes :=
  let url1 := removeUnsafe (lstripC0 url0)
  let sp := splitScheme url1
  let scheme := sp.1
  let url2 := sp.2
  if url2.take 2 = ['/', '/'] then
    let np := netlocScan (url2.drop 2)
    let netloc := np.1
    if ('[' ∈ netloc ∧ ']' ∉ netloc) ∨ (']' ∈ netloc ∧ '[' ∉ netloc) then .error ()
    else if '[' ∈ netloc then .error ()
    else if ¬ netloc.all (fun c => c.toNat < 128) then .error ()
    else
      let fs := splitOnFirst '#' np.2
      let qs := splitOnFirst '?' fs.1
      .ok ⟨scheme, netloc, qs.1, qs.2, fs.2⟩
  else
    let fs := splitOnFirst '#' url2
    let qs := splitOnFirst '?' fs.1
    .ok ⟨scheme, [], qs.1, qs.2, fs.2⟩

/-- `urllib.parse.uses_params`. -/
def usesParams : List (List Char) :=
  [[], "ftp".toList, "hdl".toList, "prospero".toList, "http".toList, "imap".toList,
   "https".toList, "shttp".toList, "rtsp".toList, "rtsps".toList, "rtspu".toList,
   "sip".toList, "sips".toList, "mms".toList, "sftp".toList, "tel".toList]

/-- `urllib.parse.uses_netloc`. -/
def usesNetloc : List (List Char) :=
  [[], "ftp".toList, "http".toList, "gopher".toList, "nntp".toList, "telnet".toList,
   "imap".toList, "wais".toList, "file".toList, "mms".toList, "https".toList,
   "shttp".toList, "snews".toList, "prospero".toList, "rtsp".toList, "rtsps".toList,
   "rtspu".toList, "rsync".toList, "svn".toList, "svn+ssh".toList, "sftp".toList,
   "nfs".toList, "git".toList, "git+ssh".toList, "ws".toList, "wss".toList]

/-- `_splitparams`: parameters are searched for only from the last `/` on
(i.e. in the last path segment); returns (path, params). -/
def splitParamsL (url : List Char) : List Char × List Char :=
  if '/' ∈ url then
    let r := splitOnFirst '/' url.reverse
    let seg := r.1.reverse
    if ';' ∈ seg then (r.2.reverse ++ '/' :: (splitOnFirst ';' seg).1, (splitOnFirst ';' seg).2)
    else (url, [])
  else splitOnFirst ';' url

structure ParseRes where
  scheme : List Char
  netloc : List Char
  path : List Char
  params : List Char
  query : List Char
  fragment : List Char
deriving Repr, DecidableEq

/-- urllib.parse.urlparse: `urlsplit` plus the scheme-aware params split. -/
def pyUrlparse (url : List Char) : Except Unit ParseRes :=
  (pyUrlsplit url).map (fun r =>
    if r.scheme ∈ usesParams ∧ ';' ∈ r.path then
      let pp := splitParamsL r.path
      ⟨r.scheme, r.netloc, pp.1, pp.2, r.query, r.fragment⟩
    else ⟨r.scheme, r.netloc, r.path, [], r.query, r.fragment⟩)

/-- urllib.parse.urlunsplit (CPython 3.11). -/
def pyUrlunsplit (scheme netloc url query fragment : List Char) : List Char :=
  let url :=
    if netloc ≠ [] ∨ (scheme ≠ [] ∧ scheme ∈ usesNetloc ∧ url.take 2 ≠ ['/', '/']) then
      let url2 := if url ≠ [] ∧ url.take 1 ≠ ['/'] then '/' :: url else url
      '/' :: '/' :: (netloc ++ url2)
    else url
  let url := if scheme ≠ [] then scheme ++ ':' :: url else url
  let url := if query ≠ [] then url ++ '?' :: query else url
  if fragment ≠ [] then url ++ '#' :: fragment else url

/-- urllib.parse.urlunparse. -/
def pyUrlunparse (scheme netloc url params query fragment : List Char) : List Char :=
  pyUrlunsplit scheme netloc (if params ≠ [] then url ++ ';' :: params else url)
    query fragment

/-- `re.sub(r"/+", "/", path)`: collapse every run of slashes to one. -/
def collapseSlashes : List Char → List Char
  | [] => []
  | [c] => [c]
  | c1 :: c2 :: cs =>
    if c1 = '/' ∧ c2 = '/' then collapseSlashes (c2 :: cs)
    else c1 :: collapseSlashes (c2 :: cs)

/-- `path.rstrip("/")`. -/
def rstripSlash : List Char → List Char
  | [] => []
  | c :: cs =>
    let r := rstripSlash cs
    if r = [] ∧ c = '/' then [] else c :: r

/-- The path normalization step of utils.canonicalize_url:
`re.sub(r"/+", "/", p.path or "/").rstrip("/") or "/"`. -/
def canonPath (p : List Char) : List Char :=
  let path0 := if p = [] then ['/'] else p
  let path1 := rstripSlash (collapseSlashes path0)
  if path1 = [] then ['/'] else path1

/-- utils.canonicalize_url at the character level:
`p = urlparse(url)`;
`path = re.sub(r"/+", "/", p.path or "/").rstrip("/") or "/"`;
`urlunparse((p.scheme, p.netloc.lower(), path, "", "", ""))`. -/
def canonicalizeL (url : List Char) : Except Unit (List Char) :=
  (pyUrlparse url).map (fun p =>
    pyUrlunparse p.scheme (lowerL p.netloc) (canonPath p.path) [] [] [])

/-- utils.canonicalize_url on `String`. -/
def canonicalize_url (url : String) : Except Unit String :=
  (canonicalizeL url.toList).map (fun l => ⟨l⟩)

instance exceptDecEq {α β : Type} [DecidableEq α] [DecidableEq β] :
    DecidableEq (Except α β) := fun x y =>
  match x, y with
  | .error a, .error b =>
    match decEq a b with
    | .isTrue h => .isTrue (by rw [h])
    | .isFalse h => .isFalse (fun hh => h (by injection hh))
  | .ok a, .ok b =>
    match decEq a b with
    | .isTrue h => .isTrue (by rw [h])
    | .isFalse h => .isFalse (fun hh => h (by injection hh))
  | .error _, .ok _ => .isFalse (fun hh => Except.noConfusion hh)
  | .ok _, .error _ => .isFalse (fun hh => Except.noConfusion hh)


/-! ## Character lemmas for URL canonicalization -/

theorem charToNat_ofNat {n : Nat} (h : n.isValidChar) : (Char.ofNat n).toNat = n := by
  unfold Char.ofNat
  rw [dif_pos h]
  rfl

theorem charEq_of_toNat {c d : Char} (h : c.toNat = d.toNat) : c = d := by
  apply Char.eq_of_val_eq
  apply UInt32.eq_of_toBitVec_eq
  exact BitVec.eq_of_toNat_eq h

theorem pyLower_toNat (c : Char) :
    (65 ≤ c.toNat ∧ c.toNat ≤ 90 ∧ (pyLower c).toNat = c.toNat + 32) ∨ pyLower c = c := by
  unfold pyLower
  by_cases h : 'A' ≤ c ∧ c ≤ 'Z'
  · rw [if_pos h]
    have h1 : 65 ≤ c.toNat := h.1
    have h2 : c.toNat ≤ 90 := h.2
    exact Or.inl ⟨h1, h2, charToNat_ofNat (Or.inl (by omega))⟩
  · rw [if_neg h]
    exact Or.inr rfl

theorem pyLower_eq_self (c : Char) (h : ¬(65 ≤ c.toNat ∧ c.toNat ≤ 90)) : pyLower c = c := by
  unfold pyLower
  rw [if_neg]
  intro ⟨h1, h2⟩
  exact h ⟨h1, h2⟩

theorem pyLower_idem (c : Char) : pyLower (pyLower c) = pyLower c := by
  rcases pyLower_toNat c with ⟨h1, h2, h3⟩ | h
  · exact pyLower_eq_self _ (by omega)
  · simp only [h]

theorem pyLower_ne (c d : Char) (hd : d.toNat < 97 ∨ 122 < d.toNat) (hne : c ≠ d) :
    pyLower c ≠ d := by
  rcases pyLower_toNat c with ⟨h1, h2, h3⟩ | h
  · intro he
    rw [he] at h3
    omega
  · rw [h]; exact hne

theorem pyLower_toNat_lt (c : Char) (h : c.toNat < 128) : (pyLower c).toNat < 128 := by
  rcases pyLower_toNat c with ⟨h1, h2, h3⟩ | hh
  · omega
  · rw [hh]; exact h

theorem lowerL_idem (l : List Char) : lowerL (lowerL l) = lowerL l := by
  unfold lowerL
  rw [List.map_map]
  apply List.map_congr_left
  intro c _
  exact pyLower_idem c

theorem isAlpha_iff_toNat (c : Char) : c.isAlpha = true ↔
    (65 ≤ c.toNat ∧ c.toNat ≤ 90) ∨ (97 ≤ c.toNat ∧ c.toNat ≤ 122) := by
  unfold Char.isAlpha Char.isUpper Char.isLower
  rw [Bool.or_eq_true, Bool.and_eq_true, Bool.and_eq_true]
  simp only [decide_eq_true_eq]
  exact Iff.rfl

theorem charEq_iff_toNat (c d : Char) : c = d ↔ c.toNat = d.toNat :=
  ⟨fun h => by rw [h], fun h => charEq_of_toNat h⟩

theorem isDigit_iff_toNat (c : Char) : c.isDigit = true ↔
    (48 ≤ c.toNat ∧ c.toNat ≤ 57) := by
  unfold Char.isDigit
  rw [Bool.and_eq_true]
  simp only [decide_eq_true_eq]
  exact Iff.rfl

theorem isSchemeChar_iff (c : Char) : isSchemeChar c = true ↔
    (65 ≤ c.toNat ∧ c.toNat ≤ 90) ∨ (97 ≤ c.toNat ∧ c.toNat ≤ 122) ∨
    (48 ≤ c.toNat ∧ c.toNat ≤ 57) ∨ c.toNat = 43 ∨ c.toNat = 45 ∨ c.toNat = 46 := by
  unfold isSchemeChar
  rw [Bool.or_eq_true, Bool.or_eq_true, Bool.or_eq_true, Bool.or_eq_true]
  rw [isAlpha_iff_toNat, isDigit_iff_toNat]
  simp only [decide_eq_true_eq]
  rw [charEq_iff_toNat c '+', charEq_iff_toNat c '-', charEq_iff_toNat c '.']
  have h1 : ('+' : Char).toNat = 43 := by decide
  have h2 : ('-' : Char).toNat = 45 := by decide
  have h3 : ('.' : Char).toNat = 46 := by decide
  rw [h1, h2, h3]
  omega

theorem pyLower_schemeChar (c : Char) (h : isSchemeChar c = true) :
    isSchemeChar (pyLower c) = true := by
  rw [isSchemeChar_iff] at h ⊢
  rcases pyLower_toNat c with ⟨h1, h2, h3⟩ | he
  · rw [h3]; omega
  · rw [he]; exact h

theorem pyLower_isAlpha (c : Char) (h : c.isAlpha = true) :
    (pyLower c).isAlpha = true := by
  rw [isAlpha_iff_toNat] at h ⊢
  rcases pyLower_toNat c with ⟨h1, h2, h3⟩ | he
  · rw [h3]; omega
  · rw [he]; exact h

theorem schemeChar_ne_colon (c : Char) (h : isSchemeChar c = true) : c ≠ ':' := by
  rw [isSchemeChar_iff] at h
  intro he
  rw [he] at h
  revert h
  decide

/-! ## Scanner lemmas: scheme -/

theorem schemeScan_some : ∀ (l a r : List Char), schemeScan l = some (a, r) →
    l = a ++ ':' :: r ∧ ∀ c ∈ a, isSchemeChar c = true := by
  intro l
  induction l with
  | nil => intro a r h; simp [schemeScan] at h
  | cons c cs ih =>
    intro a r h
    rw [schemeScan] at h
    by_cases hc : c = ':'
    · rw [if_pos hc] at h
      simp at h
      obtain ⟨rfl, rfl⟩ := h
      subst hc
      exact ⟨rfl, by simp⟩
    · rw [if_neg hc] at h
      by_cases hs : isSchemeChar c
      · rw [if_pos hs] at h
        cases hss : schemeScan cs with
        | none => rw [hss] at h; simp at h
        | some p =>
          rw [hss] at h
          simp at h
          obtain ⟨h1, h2⟩ := h
          obtain ⟨hl, hsch⟩ := ih p.1 p.2 (by rw [hss])
          subst h2
          rw [← h1]
          refine ⟨by rw [List.cons_append, ← hl], ?_⟩
          intro d hd
          rcases List.mem_cons.mp hd with rfl | hmem
          · exact hs
          · exact hsch d hmem
      · rw [if_neg hs] at h; simp at h

theorem schemeScan_append (a r : List Char) (ha : ∀ c ∈ a, isSchemeChar c = true) :
    schemeScan (a ++ ':' :: r) = some (a, r) := by
  induction a with
  | nil => simp [schemeScan]
  | cons c cs ih =>
    rw [List.cons_append, schemeScan]
    have hcs : isSchemeChar c = true := ha c (by simp)
    rw [if_neg (schemeChar_ne_colon c hcs), if_pos hcs,
      ih (fun d hd => ha d (by simp [hd]))]
    rfl

theorem schemeScan_extend (l a r t : List Char) (h : schemeScan l = some (a, r)) :
    schemeScan (l ++ t) = some (a, r ++ t) := by
  obtain ⟨hl, hs⟩ := schemeScan_some l a r h
  rw [hl, List.append_assoc, List.cons_append]
  exact schemeScan_append a (r ++ t) hs

theorem schemeScan_none_of_append (a t : List Char) (h : schemeScan (a ++ t) = none) :
    schemeScan a = none := by
  cases hs : schemeScan a with
  | none => rfl
  | some p =>
    have := schemeScan_extend a p.1 p.2 t (by rw [hs])
    rw [this] at h
    cases h

theorem splitScheme_valid (s rest : List Char) (hne : s ≠ [])
    (halpha : ∀ c, s.head? = some c → c.isAlpha = true)
    (hsch : ∀ c ∈ s, isSchemeChar c = true) :
    splitScheme (s ++ ':' :: rest) = (lowerL s, rest) := by
  match s, hne with
  | c :: s2, _ =>
    rw [List.cons_append, splitScheme]
    rw [if_pos (halpha c rfl)]
    have := schemeScan_append (c :: s2) rest hsch
    rw [List.cons_append] at this
    rw [this]

theorem splitScheme_not_alpha (url : List Char)
    (h : ∀ c, url.head? = some c → c.isAlpha = false) :
    splitScheme url = ([], url) := by
  match url with
  | [] => rfl
  | c :: cs =>
    rw [splitScheme, if_neg]
    rw [h c rfl]
    simp

theorem splitScheme_scan_none (url : List Char) (h : schemeScan url = none) :
    splitScheme url = ([], url) := by
  match url with
  | [] => rfl
  | c :: cs =>
    rw [splitScheme]
    by_cases ha : c.isAlpha
    · rw [if_pos ha, h]
    · rw [if_neg ha]

/-- The three ways a URL can fail to start with a scheme. -/
def noSchemeL (l : List Char) : Prop :=
  l = [] ∨ (∃ c, l.head? = some c ∧ c.isAlpha = false) ∨ schemeScan l = none

theorem noSchemeL_split (l : List Char) (h : noSchemeL l) : splitScheme l = ([], l) := by
  rcases h with rfl | ⟨c, hc, ha⟩ | h
  · rfl
  · refine splitScheme_not_alpha l ?_
    intro d hd
    rw [hd] at hc
    injection hc with hc
    rw [hc]; exact ha
  · exact splitScheme_scan_none l h

theorem splitScheme_cases (url : List Char) :
    (splitScheme url = ([], url) ∧ noSchemeL url) ∨
    ∃ sch rest, sch ≠ [] ∧ sch.head? = url.head? ∧
      (∀ c ∈ sch, isSchemeChar c = true) ∧
      (∀ c, sch.head? = some c → c.isAlpha = true) ∧
      url = sch ++ ':' :: rest ∧ splitScheme url = (lowerL sch, rest) := by
  match url with
  | [] => exact Or.inl ⟨rfl, Or.inl rfl⟩
  | c :: cs =>
    by_cases ha : c.isAlpha
    · cases hs : schemeScan (c :: cs) with
      | none =>
        exact Or.inl ⟨splitScheme_scan_none _ hs, Or.inr (Or.inr hs)⟩
      | some p =>
        right
        obtain ⟨hl, hsch⟩ := schemeScan_some _ p.1 p.2 hs
        have hne : p.1 ≠ [] := by
          intro hz
          rw [hz] at hl
          simp at hl
          have : c = ':' := hl.1
          rw [this] at ha
          simp [Char.isAlpha, Char.isUpper, Char.isLower] at ha
        have hhead : p.1.head? = (c :: cs).head? := by
          match p, hne with
          | (d :: p2, r), _ =>
            simp at hl ⊢
            exact hl.1.symm
        refine ⟨p.1, p.2, hne, hhead, hsch, ?_, hl, ?_⟩
        · intro d hd
          rw [hhead] at hd
          injection hd with hd
          rw [← hd]; exact ha
        · rw [splitScheme, if_pos ha, hs]
    · exact Or.inl ⟨splitScheme_not_alpha _ (fun d hd => by
        injection hd with hd; rw [← hd]; simpa using ha),
        Or.inr (Or.inl ⟨c, rfl, by simpa using ha⟩)⟩

/-! ## Scanner lemmas: netloc, fragment/query splits, params -/

theorem netlocScan_no_delim : ∀ l : List Char, ∀ c ∈ (netlocScan l).1,
    ¬(c = '/' ∨ c = '?' ∨ c = '#') := by
  intro l
  induction l with
  | nil => intro c h; simp [netlocScan] at h
  | cons d cs ih =>
    intro c h
    rw [netlocScan] at h
    by_cases hd : d = '/' || d = '?' || d = '#'
    · rw [if_pos hd] at h; simp at h
    · rw [if_neg hd] at h
      simp only at h
      rcases List.mem_cons.mp h with rfl | hmem
      · intro hor
        apply hd
        rcases hor with rfl | rfl | rfl <;> simp
      · exact ih c hmem

theorem netlocScan_recon : ∀ l : List Char, (netlocScan l).1 ++ (netlocScan l).2 = l := by
  intro l
  induction l with
  | nil => rfl
  | cons d cs ih =>
    rw [netlocScan]
    by_cases hd : d = '/' || d = '?' || d = '#'
    · rw [if_pos hd]
      simp
    · rw [if_neg hd]
      simp only [List.cons_append, ih]

theorem netlocScan_append (n r : List Char)
    (hn : ∀ c ∈ n, ¬(c = '/' ∨ c = '?' ∨ c = '#'))
    (hr : r = [] ∨ ∃ c, r.head? = some c ∧ (c = '/' ∨ c = '?' ∨ c = '#')) :
    netlocScan (n ++ r) = (n, r) := by
  induction n with
  | nil =>
    simp only [List.nil_append]
    rcases hr with rfl | ⟨c, hc, hor⟩
    · rfl
    · match r, hc with
      | c :: cs, rfl =>
        rw [netlocScan, if_pos]
        rcases hor with rfl | rfl | rfl <;> simp
  | cons d ds ih =>
    rw [List.cons_append, netlocScan, if_neg]
    · rw [ih (fun c hc => hn c (by simp [hc]))]
    · intro hd
      apply hn d (by simp)
      rcases Bool.or_eq_true .. |>.mp hd with h | h
      · rcases Bool.or_eq_true .. |>.mp h with h | h
        · exact Or.inl (by simpa using h)
        · exact Or.inr (Or.inl (by simpa using h))
      · exact Or.inr (Or.inr (by simpa using h))

theorem netlocScan_rest : ∀ l : List Char, (netlocScan l).2 = [] ∨
    ∃ c, (netlocScan l).2.head? = some c ∧ (c = '/' ∨ c = '?' ∨ c = '#') := by
  intro l
  induction l with
  | nil => exact Or.inl rfl
  | cons d cs ih =>
    rw [netlocScan]
    by_cases hd : d = '/' || d = '?' || d = '#'
    · rw [if_pos hd]
      right
      refine ⟨d, rfl, ?_⟩
      rcases Bool.or_eq_true .. |>.mp hd with h | h
      · rcases Bool.or_eq_true .. |>.mp h with h | h
        · exact Or.inl (by simpa using h)
        · exact Or.inr (Or.inl (by simpa using h))
      · exact Or.inr (Or.inr (by simpa using h))
    · rw [if_neg hd]
      exact ih

theorem splitOnFirst_not_mem (ch : Char) : ∀ l : List Char, ch ∉ l →
    splitOnFirst ch l = (l, []) := by
  intro l
  induction l with
  | nil => intro _; rfl
  | cons c cs ih =>
    intro h
    rw [splitOnFirst, if_neg (fun hc => h (by rw [hc]; simp))]
    rw [ih (fun hc => h (List.mem_cons_of_mem c hc))]

theorem splitOnFirst_mem_recon (ch : Char) : ∀ l : List Char, ch ∈ l →
    (splitOnFirst ch l).1 ++ ch :: (splitOnFirst ch l).2 = l ∧
      ch ∉ (splitOnFirst ch l).1 := by
  intro l
  induction l with
  | nil => intro h; simp at h
  | cons c cs ih =>
    intro h
    rw [splitOnFirst]
    by_cases hc : c = ch
    · rw [if_pos hc]
      subst hc
      exact ⟨rfl, by simp⟩
    · rw [if_neg hc]
      have hmem : ch ∈ cs := by
        rcases List.mem_cons.mp h with h1 | h1
        · exact absurd h1.symm hc
        · exact h1
      obtain ⟨h1, h2⟩ := ih hmem
      refine ⟨by simp only [List.cons_append, h1], ?_⟩
      intro hin
      rcases List.mem_cons.mp hin with h3 | h3
      · exact hc h3.symm
      · exact h2 h3

theorem splitOnFirst_fst_pref (ch : Char) (l : List Char) :
    ∃ t, (splitOnFirst ch l).1 ++ t = l := by
  by_cases h : ch ∈ l
  · exact ⟨ch :: (splitOnFirst ch l).2, (splitOnFirst_mem_recon ch l h).1⟩
  · rw [splitOnFirst_not_mem ch l h]
    exact ⟨[], by simp⟩

theorem splitOnFirst_fst_subset (ch : Char) (l : List Char) :
    ∀ c ∈ (splitOnFirst ch l).1, c ∈ l := by
  intro c hc
  obtain ⟨t, ht⟩ := splitOnFirst_fst_pref ch l
  rw [← ht]
  exact List.mem_append_left t hc

theorem splitOnFirst_fst_not_mem (ch : Char) (l : List Char) :
    ch ∉ (splitOnFirst ch l).1 := by
  by_cases h : ch ∈ l
  · exact (splitOnFirst_mem_recon ch l h).2
  · rw [splitOnFirst_not_mem ch l h]
    exact h

theorem splitParamsL_fst (l : List Char) :
    (splitParamsL l).1 = l ∨ (splitParamsL l).1 ++ ';' :: (splitParamsL l).2 = l := by
  unfold splitParamsL
  by_cases hs : '/' ∈ l
  · rw [if_pos hs]
    have hsrev : '/' ∈ l.reverse := List.mem_reverse.mpr hs
    obtain ⟨hrec, _⟩ := splitOnFirst_mem_recon '/' l.reverse hsrev
    by_cases hseg : ';' ∈ (splitOnFirst '/' l.reverse).1.reverse
    · rw [if_pos hseg]
      right
      simp only
      obtain ⟨hrec2, _⟩ := splitOnFirst_mem_recon ';' _ hseg
      have hl : l = (splitOnFirst '/' l.reverse).2.reverse ++
          '/' :: (splitOnFirst '/' l.reverse).1.reverse := by
        conv_lhs => rw [← List.reverse_reverse l, ← hrec]
        rw [List.reverse_append, List.reverse_cons, List.append_assoc]
        simp
      rw [List.append_assoc, List.cons_append, hrec2]
      exact hl.symm
    · rw [if_neg hseg]
      exact Or.inl rfl
  · rw [if_neg hs]
    by_cases hm : ';' ∈ l
    · exact Or.inr (splitOnFirst_mem_recon ';' l hm).1
    · rw [splitOnFirst_not_mem ';' l hm]
      exact Or.inl rfl

theorem splitParamsL_fst_pref (l : List Char) : ∃ t, (splitParamsL l).1 ++ t = l := by
  rcases splitParamsL_fst l with h | h
  · exact ⟨[], by simp [h]⟩
  · exact ⟨';' :: (splitParamsL l).2, h⟩

/-! ## Path transform lemmas: collapse and rstrip of slashes -/

/-- A list contains two adjacent slashes. -/
def hasDupSlash : List Char → Bool
  | c1 :: c2 :: cs => (c1 = '/' && c2 = '/') || hasDupSlash (c2 :: cs)
  | _ => false

theorem collapse_head : ∀ l : List Char, l ≠ [] →
    (collapseSlashes l).head? = l.head? := by
  intro l
  induction l with
  | nil => intro h; exact absurd rfl h
  | cons c cs ih =>
    intro _
    match cs, ih with
    | [], _ => rfl
    | c2 :: cs2, ih =>
      rw [collapseSlashes]
      by_cases hd : c = '/' ∧ c2 = '/'
      · rw [if_pos hd, ih (by simp)]
        simp [hd.1, hd.2]
      · rw [if_neg hd]
        rfl

theorem collapse_ne_nil : ∀ l : List Char, l ≠ [] → collapseSlashes l ≠ [] := by
  intro l
  induction l with
  | nil => intro h; exact absurd rfl h
  | cons c cs ih =>
    intro _
    match cs, ih with
    | [], _ => simp [collapseSlashes]
    | c2 :: cs2, ih =>
      rw [collapseSlashes]
      by_cases hd : c = '/' ∧ c2 = '/'
      · rw [if_pos hd]; exact ih (by simp)
      · rw [if_neg hd]; simp

theorem collapse_noDup : ∀ l : List Char, hasDupSlash (collapseSlashes l) = false := by
  intro l
  induction l with
  | nil => rfl
  | cons c cs ih =>
    match cs, ih with
    | [], _ => rfl
    | c2 :: cs2, ih =>
      rw [collapseSlashes]
      by_cases hd : c = '/' ∧ c2 = '/'
      · rw [if_pos hd]; exact ih
      · rw [if_neg hd]
        cases hcol : collapseSlashes (c2 :: cs2) with
        | nil => rfl
        | cons x xs =>
          rw [hasDupSlash, Bool.or_eq_false_iff]
          refine ⟨?_, by rw [← hcol]; exact ih⟩
          have hx : x = c2 := by
            have := collapse_head (c2 :: cs2) (by simp)
            rw [hcol] at this
            simp at this
            exact this
          rw [Bool.and_eq_false_iff]
          by_cases hc : c = '/'
          · right
            rw [hx]
            have h2 : ¬ c2 = '/' := fun h2 => hd ⟨hc, h2⟩
            simpa using h2
          · left; simpa using hc

theorem collapse_eq_self : ∀ l : List Char, hasDupSlash l = false →
    collapseSlashes l = l := by
  intro l
  induction l with
  | nil => intro _; rfl
  | cons c cs ih =>
    intro h
    match cs, ih with
    | [], _ => rfl
    | c2 :: cs2, ih =>
      rw [hasDupSlash, Bool.or_eq_false_iff] at h
      rw [collapseSlashes, if_neg, ih h.2]
      intro ⟨h1, h2⟩
      rcases Bool.and_eq_false_iff.mp h.1 with hh | hh
      · rw [h1] at hh; simp at hh
      · rw [h2] at hh; simp at hh

theorem collapse_subset : ∀ l : List Char, ∀ c ∈ collapseSlashes l, c ∈ l := by
  intro l
  induction l with
  | nil => intro c h; exact h
  | cons d cs ih =>
    intro c h
    match cs, ih with
    | [], _ => exact h
    | c2 :: cs2, ih =>
      rw [collapseSlashes] at h
      by_cases hd : d = '/' ∧ c2 = '/'
      · rw [if_pos hd] at h
        exact List.mem_cons_of_mem d (ih c h)
      · rw [if_neg hd] at h
        rcases List.mem_cons.mp h with rfl | hmem
        · simp
        · exact List.mem_cons_of_mem d (ih c hmem)

theorem hasDup_append_left : ∀ a t : List Char, hasDupSlash (a ++ t) = false →
    hasDupSlash a = false := by
  intro a
  induction a with
  | nil => intro t _; rfl
  | cons c cs ih =>
    intro t h
    match cs, ih with
    | [], _ => rfl
    | c2 :: cs2, ih =>
      rw [List.cons_append, List.cons_append, hasDupSlash, Bool.or_eq_false_iff] at h
      rw [hasDupSlash, Bool.or_eq_false_iff]
      rw [← List.cons_append] at h
      exact ⟨h.1, ih t h.2⟩

theorem rstripSlash_pref : ∀ l : List Char, ∃ t, rstripSlash l ++ t = l := by
  intro l
  induction l with
  | nil => exact ⟨[], rfl⟩
  | cons c cs ih =>
    rw [rstripSlash]
    by_cases h : rstripSlash cs = [] ∧ c = '/'
    · exact ⟨c :: cs, by simp [h]⟩
    · obtain ⟨t, ht⟩ := ih
      exact ⟨t, by simp [h, ht]⟩

theorem rstripSlash_last : ∀ (l : List Char) (c : Char),
    (rstripSlash l).getLast? = some c → c ≠ '/' := by
  intro l
  induction l with
  | nil => intro c h; simp [rstripSlash] at h
  | cons d cs ih =>
    intro c h
    rw [rstripSlash] at h
    by_cases hc : rstripSlash cs = [] ∧ d = '/'
    · rw [if_pos hc] at h; simp at h
    · rw [if_neg hc] at h
      by_cases he : rstripSlash cs = []
      · rw [he] at h
        simp at h
        have hd : ¬ d = '/' := fun hw => hc ⟨he, hw⟩
        rw [← h]; exact hd
      · match hrw : rstripSlash cs, he with
        | x :: xs, _ =>
          rw [hrw, List.getLast?_cons_cons] at h
          exact ih c (hrw ▸ h)

theorem rstripSlash_eq_self : ∀ l : List Char,
    (∀ c, l.getLast? = some c → c ≠ '/') → rstripSlash l = l := by
  intro l
  induction l with
  | nil => intro _; rfl
  | cons c cs ih =>
    intro h
    match cs, ih with
    | [], _ =>
      have : c ≠ '/' := h c (by simp)
      rw [rstripSlash]
      simp [rstripSlash, this]
    | d :: ds, ih =>
      have hcs : rstripSlash (d :: ds) = d :: ds := by
        refine ih ?_
        intro e he
        refine h e ?_
        rw [List.getLast?_cons_cons]
        exact he
      rw [rstripSlash]
      simp only [hcs]
      rw [if_neg (fun hx => List.noConfusion hx.1)]

/-! ## Character classes and no-op conditions for the clean-up steps -/

theorem not_c0_of_toNat (c : Char) (h : 33 ≤ c.toNat) : isC0OrSpace c = false := by
  unfold isC0OrSpace
  simp only [decide_eq_false_iff_not]
  intro hle
  have h2 : c.toNat ≤ 32 := hle
  omega

theorem not_unsafe_of_toNat (c : Char) (h : 33 ≤ c.toNat) : isUnsafeUrlChar c = false := by
  unfold isUnsafeUrlChar
  simp only [Bool.or_eq_false_iff, decide_eq_false_iff_not]
  refine ⟨⟨?_, ?_⟩, ?_⟩ <;>
    · intro he
      rw [he] at h
      revert h
      decide

theorem schemeChar_toNat_ge (c : Char) (h : isSchemeChar c = true) : 43 ≤ c.toNat := by
  rw [isSchemeChar_iff] at h
  omega

theorem pyLower_not_unsafe (c : Char) (h : isUnsafeUrlChar c = false) :
    isUnsafeUrlChar (pyLower c) = false := by
  rcases pyLower_toNat c with ⟨h1, h2, h3⟩ | he
  · exact not_unsafe_of_toNat _ (by omega)
  · rw [he]; exact h

theorem dropWhile_eq_self_of_head (p : Char → Bool) : ∀ l : List Char,
    (∀ c, l.head? = some c → p c = false) → l.dropWhile p = l := by
  intro l h
  match l with
  | [] => rfl
  | c :: cs =>
    rw [List.dropWhile_cons, if_neg]
    rw [h c rfl]
    simp

theorem dropWhile_head_prop (p : Char → Bool) : ∀ (l : List Char) (c : Char),
    (l.dropWhile p).head? = some c → p c = false := by
  intro l
  induction l with
  | nil => intro c h; simp at h
  | cons d cs ih =>
    intro c h
    rw [List.dropWhile_cons] at h
    by_cases hd : p d
    · rw [if_pos hd] at h
      exact ih c h
    · rw [if_neg hd] at h
      injection h with h
      rw [← h]
      simpa using hd

theorem removeUnsafe_all (l : List Char) : ∀ c ∈ removeUnsafe l, isUnsafeUrlChar c = false := by
  intro c hc
  have := List.of_mem_filter hc
  simpa using this

theorem removeUnsafe_eq_self (l : List Char) (h : ∀ c ∈ l, isUnsafeUrlChar c = false) :
    removeUnsafe l = l := by
  apply List.filter_eq_self.mpr
  intro a ha
  rw [h a ha]
  rfl

theorem removeUnsafe_head (l : List Char) (c : Char) (h : l.head? = some c)
    (hc : isUnsafeUrlChar c = false) : (removeUnsafe l).head? = some c := by
  match l, h with
  | d :: ds, h =>
    injection h with h
    subst h
    unfold removeUnsafe
    rw [List.filter_cons_of_pos (by rw [hc]; rfl)]
    rfl

theorem cleanUrl_head (u : List Char) (c : Char)
    (h : (removeUnsafe (lstripC0 u)).head? = some c) : isC0OrSpace c = false := by
  unfold removeUnsafe at h
  cases hd : (lstripC0 u) with
  | nil => rw [hd] at h; simp at h
  | cons d ds =>
    have hdc0 : isC0OrSpace d = false := by
      have := dropWhile_head_prop isC0OrSpace u d (by rw [show u.dropWhile isC0OrSpace = d :: ds from hd]; rfl)
      exact this
    have hd_keepch : isUnsafeUrlChar d = false := by
      unfold isUnsafeUrlChar
      unfold isC0OrSpace at hdc0
      simp only [decide_eq_false_iff_not] at hdc0
      simp only [Bool.or_eq_false_iff, decide_eq_false_iff_not]
      have hgt : 33 ≤ d.toNat := by
        by_contra hlt
        apply hdc0
        have : d.toNat ≤ 32 := by omega
        exact this
      refine ⟨⟨?_, ?_⟩, ?_⟩ <;>
        · intro he
          rw [he] at hgt
          revert hgt
          decide
    rw [hd] at h
    rw [List.filter_cons_of_pos (by rw [hd_keepch]; rfl)] at h
    injection h with h
    rw [← h]
    exact hdc0

theorem pref_head (a t l : List Char) (h : a ++ t = l) (ha : a ≠ []) :
    l.head? = a.head? := by
  match a, ha with
  | c :: as, _ =>
    rw [← h]
    rfl

/-! ## No-scheme preservation through the path transform -/

theorem schemeScan_none_collapse : ∀ l : List Char, schemeScan l = none →
    schemeScan (collapseSlashes l) = none := by
  intro l
  induction l with
  | nil => intro _; rfl
  | cons c cs ih =>
    intro h
    match cs, ih with
    | [], _ => exact h
    | c2 :: cs2, ih =>
      rw [schemeScan] at h
      by_cases hc : c = ':'
      · rw [if_pos hc] at h; cases h
      · rw [if_neg hc] at h
        by_cases hs : isSchemeChar c
        · rw [if_pos hs] at h
          have htail : schemeScan (c2 :: cs2) = none := by
            cases hx : schemeScan (c2 :: cs2) with
            | none => rfl
            | some p => rw [hx] at h; simp at h
          rw [collapseSlashes]
          have hcslash : ¬(c = '/' ∧ c2 = '/') := by
            intro ⟨h1, _⟩
            rw [h1] at hs
            revert hs
            decide
          rw [if_neg hcslash, schemeScan, if_neg hc, if_pos hs, ih htail]
          rfl
        · rw [if_neg hs] at h
          rw [collapseSlashes]
          by_cases hd : c = '/' ∧ c2 = '/'
          · rw [if_pos hd]
            have hh := collapse_head (c2 :: cs2) (by simp)
            cases hcol : collapseSlashes (c2 :: cs2) with
            | nil => rfl
            | cons x xs =>
              rw [hcol] at hh
              simp at hh
              rw [schemeScan, hh, hd.2]
              rw [if_neg (by decide : ¬(('/' : Char) = ':'))]
              rw [if_neg (by decide : ¬(isSchemeChar '/' = true))]
          · rw [if_neg hd, schemeScan, if_neg hc, if_neg hs]

theorem noSchemeL_pref (a t : List Char) (h : noSchemeL (a ++ t)) : noSchemeL a := by
  rcases h with h | ⟨c, hc, ha⟩ | h
  · exact Or.inl (List.append_eq_nil.mp h).1
  · match a with
    | [] => exact Or.inl rfl
    | d :: as =>
      right; left
      refine ⟨d, rfl, ?_⟩
      rw [List.cons_append] at hc
      injection hc with hc
      rw [hc]; exact ha
  · match a with
    | [] => exact Or.inl rfl
    | d :: as =>
      exact Or.inr (Or.inr (schemeScan_none_of_append _ t h))

theorem noSchemeL_collapse (l : List Char) (h : noSchemeL l) :
    noSchemeL (collapseSlashes l) := by
  rcases h with rfl | ⟨c, hc, ha⟩ | h
  · exact Or.inl rfl
  · right; left
    refine ⟨c, ?_, ha⟩
    match l, hc with
    | d :: ds, hc =>
      rw [collapse_head (d :: ds) (by simp)]
      exact hc
  · exact Or.inr (Or.inr (schemeScan_none_collapse l h))

theorem noSchemeL_rstripSlash (l : List Char) (h : noSchemeL l) :
    noSchemeL (rstripSlash l) := by
  obtain ⟨t, ht⟩ := rstripSlash_pref l
  exact noSchemeL_pref _ t (by rw [ht]; exact h)

theorem noSchemeL_slash : noSchemeL ['/'] :=
  Or.inr (Or.inl ⟨'/', rfl, by decide⟩)

theorem noSchemeL_canonPath (p : List Char) (h : noSchemeL p) :
    noSchemeL (canonPath p) := by
  by_cases hp : p = []
  · subst hp
    have hcp : canonPath ([] : List Char) = ['/'] := by decide
    rw [hcp]
    exact noSchemeL_slash
  · unfold canonPath
    simp only [if_neg hp]
    by_cases hz : rstripSlash (collapseSlashes p) = []
    · rw [if_pos hz]; exact noSchemeL_slash
    · rw [if_neg hz]
      exact noSchemeL_rstripSlash _ (noSchemeL_collapse _ h)

/-! ## canonPath shape lemmas -/

theorem canonPath_ne_nil (p : List Char) : canonPath p ≠ [] := by
  by_cases hp : p = []
  · subst hp; decide
  · unfold canonPath
    simp only [if_neg hp]
    by_cases hz : rstripSlash (collapseSlashes p) = []
    · rw [if_pos hz]; simp
    · rw [if_neg hz]; exact hz

theorem canonPath_noDup (p : List Char) : hasDupSlash (canonPath p) = false := by
  by_cases hp : p = []
  · subst hp; decide
  · unfold canonPath
    simp only [if_neg hp]
    by_cases hz : rstripSlash (collapseSlashes p) = []
    · rw [if_pos hz]; rfl
    · rw [if_neg hz]
      obtain ⟨t, ht⟩ := rstripSlash_pref (collapseSlashes p)
      exact hasDup_append_left _ t (by rw [ht]; exact collapse_noDup _)

theorem canonPath_last (p : List Char) :
    canonPath p = ['/'] ∨ ∀ c, (canonPath p).getLast? = some c → c ≠ '/' := by
  by_cases hp : p = []
  · subst hp; exact Or.inl (by decide)
  · unfold canonPath
    simp only [if_neg hp]
    by_cases hz : rstripSlash (collapseSlashes p) = []
    · rw [if_pos hz]; exact Or.inl rfl
    · rw [if_neg hz]
      right
      intro c hc
      exact rstripSlash_last _ c hc

theorem canonPath_subset (p : List Char) : ∀ c ∈ canonPath p, c ∈ p ∨ c = '/' := by
  by_cases hp : p = []
  · subst hp
    intro c hc
    have : canonPath ([] : List Char) = ['/'] := by decide
    rw [this] at hc
    simp at hc
    exact Or.inr hc
  · unfold canonPath
    simp only [if_neg hp]
    intro c hc
    by_cases hz : rstripSlash (collapseSlashes p) = []
    · rw [if_pos hz] at hc
      simp at hc
      exact Or.inr hc
    · rw [if_neg hz] at hc
      obtain ⟨t, ht⟩ := rstripSlash_pref (collapseSlashes p)
      have hcol : c ∈ collapseSlashes p := by
        rw [← ht]
        exact List.mem_append_left t hc
      exact Or.inl (collapse_subset _ c hcol)

theorem canonPath_head (p : List Char) :
    (canonPath p).head? = p.head? ∨ canonPath p = ['/'] := by
  by_cases hp : p = []
  · subst hp
    exact Or.inr (by decide)
  · unfold canonPath
    simp only [if_neg hp]
    by_cases hz : rstripSlash (collapseSlashes p) = []
    · rw [if_pos hz]; exact Or.inr rfl
    · rw [if_neg hz]
      left
      obtain ⟨t, ht⟩ := rstripSlash_pref (collapseSlashes p)
      rw [← pref_head _ t _ ht hz]
      exact collapse_head p hp

theorem getLast_opt_cons (a : Char) (l : List Char) (h : l ≠ []) :
    (a :: l).getLast? = l.getLast? := by
  match l, h with
  | c :: cs, _ => exact List.getLast?_cons_cons

theorem hasDup_cons_of (c : Char) (q : List Char) (h1 : hasDupSlash q = false)
    (h2 : ¬(c = '/' ∧ q.head? = some '/')) : hasDupSlash (c :: q) = false := by
  match q with
  | [] => rfl
  | d :: ds =>
    rw [hasDupSlash, Bool.or_eq_false_iff]
    refine ⟨?_, h1⟩
    rw [Bool.and_eq_false_iff]
    by_cases hc : c = '/'
    · right
      have : ¬ d = '/' := fun hd => h2 ⟨hc, by simp [hd]⟩
      simpa using this
    · left; simpa using hc

theorem canonPath_fixes (p : List Char) (h1 : p ≠ []) (h2 : hasDupSlash p = false)
    (h3 : p = ['/'] ∨ ∀ c, p.getLast? = some c → c ≠ '/') : canonPath p = p := by
  rcases h3 with rfl | h3
  · decide
  · unfold canonPath
    simp only [if_neg h1]
    rw [collapse_eq_self p h2, rstripSlash_eq_self p h3, if_neg h1]

/-! ## Reparsing a canonical URL -/

theorem take1_head (q : List Char) (h : q.take 1 = ['/']) : q.head? = some '/' := by
  match q with
  | [] => simp at h
  | c :: cs =>
    simp at h
    rw [h]
    rfl

theorem noDup_take2 (q : List Char) (h : hasDupSlash q = false) :
    q.take 2 ≠ ['/', '/'] := by
  match q with
  | [] => simp
  | [c] => simp
  | c1 :: c2 :: cs =>
    rw [hasDupSlash, Bool.or_eq_false_iff, Bool.and_eq_false_iff] at h
    intro ht
    simp at ht
    rcases h.1 with hh | hh
    · rw [ht.1] at hh; simp at hh
    · rw [ht.2] at hh; simp at hh

theorem alpha_ge_33 (c : Char) (h : c.isAlpha = true) : 33 ≤ c.toNat := by
  rw [isAlpha_iff_toNat] at h; omega

theorem pyUrlunsplit_empty (s n q : List Char) :
    pyUrlunsplit s n q [] [] =
      (if s ≠ [] then
        s ++ ':' :: (if n ≠ [] ∨ (s ≠ [] ∧ s ∈ usesNetloc ∧ q.take 2 ≠ ['/', '/']) then
          '/' :: '/' :: (n ++ (if q ≠ [] ∧ q.take 1 ≠ ['/'] then '/' :: q else q))
        else q)
      else (if n ≠ [] ∨ (s ≠ [] ∧ s ∈ usesNetloc ∧ q.take 2 ≠ ['/', '/']) then
          '/' :: '/' :: (n ++ (if q ≠ [] ∧ q.take 1 ≠ ['/'] then '/' :: q else q))
        else q)) := by
  unfold pyUrlunsplit
  simp only
  rw [if_neg (by simp : ¬(([] : List Char) ≠ []))]
  rw [if_neg (by simp : ¬(([] : List Char) ≠ []))]

theorem clean_eq_self (l : List Char) (hall : ∀ c ∈ l, isUnsafeUrlChar c = false)
    (hhead : ∀ c, l.head? = some c → isC0OrSpace c = false) :
    removeUnsafe (lstripC0 l) = l := by
  unfold lstripC0
  rw [dropWhile_eq_self_of_head isC0OrSpace l hhead]
  exact removeUnsafe_eq_self l hall

theorem head_ne_slash_of_take1 (q : List Char) (hne : q ≠ []) (h : q.take 1 ≠ ['/']) :
    ∀ c, q.head? = some c → c ≠ '/' := by
  match q, hne with
  | c :: cs, _ =>
    intro d hd he
    injection hd with hd
    apply h
    simp [hd, he]

theorem pyUrlsplit_of_canonForm (s n q : List Char)
    (hs_alpha : ∀ c, s.head? = some c → c.isAlpha = true)
    (hs_lower : lowerL s = s)
    (hs_sch : ∀ c ∈ s, isSchemeChar c = true)
    (hn_delim : ∀ c ∈ n, ¬(c = '/' ∨ c = '?' ∨ c = '#'))
    (hn_lb : '[' ∉ n) (hn_rb : ']' ∉ n)
    (hn_ascii : n.all (fun c => c.toNat < 128) = true)
    (hn_keepch : ∀ c ∈ n, isUnsafeUrlChar c = false)
    (hq_ne : q ≠ []) (hq_noDup : hasDupSlash q = false)
    (hq_hash : '#' ∉ q) (hq_quest : '?' ∉ q)
    (hq_keepch : ∀ c ∈ q, isUnsafeUrlChar c = false)
    (hns : s = [] ∧ n = [] → noSchemeL q ∧ ∀ c, q.head? = some c → isC0OrSpace c = false) :
    pyUrlsplit (pyUrlunsplit s n q [] []) = .ok ⟨s, n,
      (if n ≠ [] ∨ (s ≠ [] ∧ s ∈ usesNetloc ∧ q.take 2 ≠ ['/', '/']) then
        (if q ≠ [] ∧ q.take 1 ≠ ['/'] then '/' :: q else q) else q), [], []⟩ := by
  rw [pyUrlunsplit_empty]
  by_cases hcond : n ≠ [] ∨ (s ≠ [] ∧ s ∈ usesNetloc ∧ q.take 2 ≠ ['/', '/'])
  · rw [if_pos hcond]
    set qf := if q ≠ [] ∧ q.take 1 ≠ ['/'] then '/' :: q else q with hqf
    set w : List Char := '/' :: '/' :: (n ++ qf) with hw
    have hqf_head : qf.head? = some '/' := by
      rw [hqf]
      by_cases hpre : q ≠ [] ∧ q.take 1 ≠ ['/']
      · rw [if_pos hpre]; rfl
      · rw [if_neg hpre]
        have : q.take 1 = ['/'] := by
          rcases not_and_or.mp hpre with h | h
          · exact absurd hq_ne (by simpa using h)
          · simpa using h
        exact take1_head q this
    have hqf_sub : ∀ c ∈ qf, c ∈ q ∨ c = '/' := by
      intro c hc
      rw [hqf] at hc
      by_cases hpre : q ≠ [] ∧ q.take 1 ≠ ['/']
      · rw [if_pos hpre] at hc
        rcases List.mem_cons.mp hc with rfl | hm
        · exact Or.inr rfl
        · exact Or.inl hm
      · rw [if_neg hpre] at hc
        exact Or.inl hc
    have hw_unsafe : ∀ c ∈ w, isUnsafeUrlChar c = false := by
      intro c hc
      rw [hw] at hc
      rcases List.mem_cons.mp hc with rfl | hc
      · decide
      rcases List.mem_cons.mp hc with rfl | hc
      · decide
      rcases List.mem_append.mp hc with hc | hc
      · exact hn_keepch c hc
      · rcases hqf_sub c hc with hc | rfl
        · exact hq_keepch c hc
        · decide
    have hsplitS : splitScheme (if s ≠ [] then s ++ ':' :: w else w) = (s, w) := by
      by_cases hs0 : s ≠ []
      · rw [if_pos hs0]
        rw [splitScheme_valid s w hs0 hs_alpha hs_sch, hs_lower]
      · rw [if_neg hs0]
        push_neg at hs0
        subst hs0
        exact splitScheme_not_alpha w (by
          intro c hch
          rw [hw] at hch
          injection hch with hch
          rw [← hch]
          decide)
    have hv_unsafe : ∀ c ∈ (if s ≠ [] then s ++ ':' :: w else w), isUnsafeUrlChar c = false := by
      by_cases hs0 : s ≠ []
      · rw [if_pos hs0]
        intro c hc
        rcases List.mem_append.mp hc with hc | hc
        · exact not_unsafe_of_toNat c (by
            have := schemeChar_toNat_ge c (hs_sch c hc)
            omega)
        rcases List.mem_cons.mp hc with rfl | hc
        · decide
        · exact hw_unsafe c hc
      · rw [if_neg hs0]
        exact hw_unsafe
    have hv_head : ∀ c, (if s ≠ [] then s ++ ':' :: w else w).head? = some c →
        isC0OrSpace c = false := by
      by_cases hs0 : s ≠ []
      · rw [if_pos hs0]
        intro c hc
        match s, hs_alpha, hc with
        | d :: ds, hs_alpha, hc =>
          injection hc with hc
          subst hc
          exact not_c0_of_toNat d (alpha_ge_33 d (hs_alpha d rfl))
      · rw [if_neg hs0]
        intro c hc
        rw [hw] at hc
        injection hc with hc
        subst hc
        decide
    have hqf_hash : '#' ∉ qf := by
      intro hmem
      rcases hqf_sub '#' hmem with h | h
      · exact hq_hash h
      · cases h
    have hqf_quest : '?' ∉ qf := by
      intro hmem
      rcases hqf_sub '?' hmem with h | h
      · exact hq_quest h
      · cases h
    have hbr : ¬(('[' ∈ n ∧ ']' ∉ n) ∨ (']' ∈ n ∧ '[' ∉ n)) := by
      intro hor
      rcases hor with ⟨h1, _⟩ | ⟨h1, _⟩
      · exact hn_lb h1
      · exact hn_rb h1
    have hclean := clean_eq_self _ hv_unsafe hv_head
    unfold pyUrlsplit
    simp only [hclean, hsplitS]
    rw [if_pos (show List.take 2 w = ['/', '/'] by rw [hw]; rfl)]
    rw [show List.drop 2 w = n ++ qf by rw [hw]; rfl]
    rw [netlocScan_append n qf hn_delim (Or.inr ⟨'/', hqf_head, Or.inl rfl⟩)]
    simp only
    rw [if_neg hbr, if_neg hn_lb, if_neg (not_not_intro hn_ascii)]
    rw [splitOnFirst_not_mem '#' qf hqf_hash]
    simp only
    rw [splitOnFirst_not_mem '?' qf hqf_quest]
    rw [if_pos hcond]
  · rw [if_neg hcond]
    have hn0 : n = [] := by
      by_contra hne
      exact hcond (Or.inl hne)
    have hsplitS : splitScheme (if s ≠ [] then s ++ ':' :: q else q) = (s, q) := by
      by_cases hs0 : s ≠ []
      · rw [if_pos hs0]
        rw [splitScheme_valid s q hs0 hs_alpha hs_sch, hs_lower]
      · rw [if_neg hs0]
        push_neg at hs0
        subst hs0
        exact noSchemeL_split q ((hns ⟨rfl, hn0⟩).1)
    have hv_unsafe : ∀ c ∈ (if s ≠ [] then s ++ ':' :: q else q),
        isUnsafeUrlChar c = false := by
      by_cases hs0 : s ≠ []
      · rw [if_pos hs0]
        intro c hc
        rcases List.mem_append.mp hc with hc | hc
        · exact not_unsafe_of_toNat c (by
            have := schemeChar_toNat_ge c (hs_sch c hc)
            omega)
        rcases List.mem_cons.mp hc with rfl | hc
        · decide
        · exact hq_keepch c hc
      · rw [if_neg hs0]
        exact hq_keepch
    have hv_head : ∀ c, (if s ≠ [] then s ++ ':' :: q else q).head? = some c →
        isC0OrSpace c = false := by
      by_cases hs0 : s ≠ []
      · rw [if_pos hs0]
        intro c hc
        match s, hs_alpha, hc with
        | d :: ds, hs_alpha, hc =>
          injection hc with hc
          subst hc
          exact not_c0_of_toNat d (alpha_ge_33 d (hs_alpha d rfl))
      · rw [if_neg hs0]
        push_neg at hs0
        exact (hns ⟨hs0, hn0⟩).2
    have hclean := clean_eq_self _ hv_unsafe hv_head
    unfold pyUrlsplit
    simp only [hclean, hsplitS]
    rw [if_neg (noDup_take2 q hq_noDup)]
    rw [splitOnFirst_not_mem '#' q hq_hash]
    simp only
    rw [splitOnFirst_not_mem '?' q hq_quest]
    rw [hn0]
    rw [if_neg (show ¬(([] : List Char) ≠ [] ∨ s ≠ [] ∧ s ∈ usesNetloc ∧
        List.take 2 q ≠ ['/', '/']) from by
      intro hor
      rcases hor with h | h
      · exact h rfl
      · exact hcond (Or.inr h))]

theorem unsplit_canon_stable (s n q : List Char)
    (hs_alpha : ∀ c, s.head? = some c → c.isAlpha = true)
    (hs_lower : lowerL s = s)
    (hs_sch : ∀ c ∈ s, isSchemeChar c = true)
    (hn_delim : ∀ c ∈ n, ¬(c = '/' ∨ c = '?' ∨ c = '#'))
    (hn_lb : '[' ∉ n) (hn_rb : ']' ∉ n)
    (hn_ascii : n.all (fun c => c.toNat < 128) = true)
    (hn_keepch : ∀ c ∈ n, isUnsafeUrlChar c = false)
    (hn_lower : lowerL n = n)
    (hq_ne : q ≠ []) (hq_noDup : hasDupSlash q = false)
    (hq_hash : '#' ∉ q) (hq_quest : '?' ∉ q) (hq_semi : ';' ∉ q)
    (hq_keepch : ∀ c ∈ q, isUnsafeUrlChar c = false)
    (hq_last : q = ['/'] ∨ ∀ c, q.getLast? = some c → c ≠ '/')
    (hns : s = [] ∧ n = [] → noSchemeL q ∧ ∀ c, q.head? = some c → isC0OrSpace c = false) :
    canonicalizeL (pyUrlunsplit s n q [] []) = .ok (pyUrlunsplit s n q [] []) := by
  unfold canonicalizeL pyUrlparse
  rw [pyUrlsplit_of_canonForm s n q hs_alpha hs_lower hs_sch hn_delim hn_lb hn_rb
    hn_ascii hn_keepch hq_ne hq_noDup hq_hash hq_quest hq_keepch hns]
  set path2 := (if n ≠ [] ∨ (s ≠ [] ∧ s ∈ usesNetloc ∧ q.take 2 ≠ ['/', '/']) then
      (if q ≠ [] ∧ q.take 1 ≠ ['/'] then '/' :: q else q) else q) with hpath2
  have hp2_cases : path2 = q ∨
      (path2 = '/' :: q ∧ q ≠ [] ∧ q.take 1 ≠ ['/'] ∧
        (n ≠ [] ∨ (s ≠ [] ∧ s ∈ usesNetloc ∧ q.take 2 ≠ ['/', '/']))) := by
    rw [hpath2]
    by_cases hcond : n ≠ [] ∨ (s ≠ [] ∧ s ∈ usesNetloc ∧ q.take 2 ≠ ['/', '/'])
    · rw [if_pos hcond]
      by_cases hpre : q ≠ [] ∧ q.take 1 ≠ ['/']
      · rw [if_pos hpre]
        exact Or.inr ⟨rfl, hpre.1, hpre.2, hcond⟩
      · rw [if_neg hpre]
        exact Or.inl rfl
    · rw [if_neg hcond]
      exact Or.inl rfl
  have hp2_semi : ';' ∉ path2 := by
    rcases hp2_cases with h | ⟨h, _⟩ <;> rw [h]
    · exact hq_semi
    · intro hm
      rcases List.mem_cons.mp hm with hh | hh
      · cases hh
      · exact hq_semi hh
  have hcp : canonPath path2 = path2 := by
    rcases hp2_cases with h | ⟨h, hne, hpre, _⟩ <;> rw [h]
    · exact canonPath_fixes q hq_ne hq_noDup hq_last
    · refine canonPath_fixes ('/' :: q) (by simp) ?_ ?_
      · refine hasDup_cons_of '/' q hq_noDup ?_
        intro ⟨_, hh⟩
        exact head_ne_slash_of_take1 q hne hpre '/' hh rfl
      · right
        intro c hc
        rw [getLast_opt_cons '/' q hne] at hc
        rcases hq_last with rfl | hlast
        · exact absurd rfl hpre
        · exact hlast c hc
  simp only [Except.map]
  rw [if_neg (fun hx => hp2_semi hx.2)]
  simp only
  rw [hn_lower, hcp]
  unfold pyUrlunparse
  rw [if_neg (by simp : ¬(([] : List Char) ≠ []))]
  rcases hp2_cases with h | ⟨h, hne, hpre, hcond⟩
  · rw [h]
  · rw [h]
    rw [pyUrlunsplit_empty s n ('/' :: q), pyUrlunsplit_empty s n q]
    have hcond2 : n ≠ [] ∨ (s ≠ [] ∧ s ∈ usesNetloc ∧ ('/' :: q).take 2 ≠ ['/', '/']) := by
      rcases hcond with hh | ⟨h1, h2, _⟩
      · exact Or.inl hh
      · refine Or.inr ⟨h1, h2, ?_⟩
        intro heq
        apply hpre
        have : List.take 2 ('/' :: q) = '/' :: List.take 1 q := rfl
        rw [this] at heq
        injection heq with h1 h2
    rw [if_pos hcond2, if_pos hcond]
    rw [if_neg (show ¬(('/' :: q) ≠ [] ∧ ('/' :: q).take 1 ≠ ['/']) from by
      intro ⟨_, hx⟩
      exact hx rfl)]
    rw [if_pos (show q ≠ [] ∧ List.take 1 q ≠ ['/'] from ⟨hne, hpre⟩)]

theorem splitOnFirst_head_ne (ch : Char) (l : List Char) (c : Char)
    (h : l.head? = some c) (hne : c ≠ ch) :
    (splitOnFirst ch l).1.head? = some c := by
  match l, h with
  | d :: ds, h =>
    injection h with h
    subst h
    rw [splitOnFirst, if_neg (by exact fun hh => hne hh)]
    rfl

theorem pyUrlsplit_inv (u : List Char) (r : SplitRes) (h : pyUrlsplit u = .ok r) :
    (∀ c ∈ r.scheme, isSchemeChar c = true) ∧
    lowerL r.scheme = r.scheme ∧
    (∀ c, r.scheme.head? = some c → c.isAlpha = true) ∧
    (∀ c ∈ r.netloc, ¬(c = '/' ∨ c = '?' ∨ c = '#')) ∧
    '[' ∉ r.netloc ∧ ']' ∉ r.netloc ∧
    r.netloc.all (fun c => c.toNat < 128) = true ∧
    (∀ c ∈ r.netloc, isUnsafeUrlChar c = false) ∧
    '#' ∉ r.path ∧ '?' ∉ r.path ∧
    (∀ c ∈ r.path, isUnsafeUrlChar c = false) ∧
    (r.scheme = [] ∧ r.netloc = [] →
      noSchemeL r.path ∧ ∀ c, r.path.head? = some c → isC0OrSpace c = false) := by
  have hu1_unsafe : ∀ c ∈ removeUnsafe (lstripC0 u), isUnsafeUrlChar c = false :=
    removeUnsafe_all _
  have hu1_head : ∀ c, (removeUnsafe (lstripC0 u)).head? = some c → isC0OrSpace c = false :=
    fun c hc => cleanUrl_head u c hc
  unfold pyUrlsplit at h
  rcases splitScheme_cases (removeUnsafe (lstripC0 u)) with ⟨hsp, hns1⟩ |
    ⟨sch, rest, hsch_ne, hsch_head, hsch_chars, hsch_alpha, hsch_eq, hsp⟩
  all_goals simp only [hsp] at h
  -- case 1: no scheme; case 2: scheme sch
  case inl =>
    by_cases htake : List.take 2 (removeUnsafe (lstripC0 u)) = ['/', '/']
    · rw [if_pos htake] at h
      by_cases hbr : ('[' ∈ (netlocScan (List.drop 2 (removeUnsafe (lstripC0 u)))).1 ∧
            ']' ∉ (netlocScan (List.drop 2 (removeUnsafe (lstripC0 u)))).1) ∨
          (']' ∈ (netlocScan (List.drop 2 (removeUnsafe (lstripC0 u)))).1 ∧
            '[' ∉ (netlocScan (List.drop 2 (removeUnsafe (lstripC0 u)))).1)
      · rw [if_pos hbr] at h; cases h
      rw [if_neg hbr] at h
      by_cases hlb : '[' ∈ (netlocScan (List.drop 2 (removeUnsafe (lstripC0 u)))).1
      · rw [if_pos hlb] at h; cases h
      rw [if_neg hlb] at h
      by_cases hascii : ¬((netlocScan (List.drop 2 (removeUnsafe (lstripC0 u)))).1.all
          (fun c => c.toNat < 128) = true)
      · rw [if_pos hascii] at h; cases h
      rw [if_neg hascii] at h
      injection h with h
      subst h
      simp only
      have hrb : ']' ∉ (netlocScan (List.drop 2 (removeUnsafe (lstripC0 u)))).1 := by
        intro hmem
        exact hbr (Or.inr ⟨hmem, hlb⟩)
      have hnsub : ∀ c ∈ (netlocScan (List.drop 2 (removeUnsafe (lstripC0 u)))).1,
          c ∈ removeUnsafe (lstripC0 u) := by
        intro c hc
        have h1 : c ∈ List.drop 2 (removeUnsafe (lstripC0 u)) := by
          rw [← netlocScan_recon (List.drop 2 (removeUnsafe (lstripC0 u)))]
          exact List.mem_append_left _ hc
        exact List.drop_subset 2 _ h1
      have hrest2 := (netlocScan (List.drop 2 (removeUnsafe (lstripC0 u)))).2
      have hpathsub : ∀ c ∈ (splitOnFirst '?' (splitOnFirst '#'
            (netlocScan (List.drop 2 (removeUnsafe (lstripC0 u)))).2).1).1,
          c ∈ removeUnsafe (lstripC0 u) := by
        intro c hc
        have h1 := splitOnFirst_fst_subset '?' _ c hc
        have h2 := splitOnFirst_fst_subset '#' _ c h1
        have h3 : c ∈ List.drop 2 (removeUnsafe (lstripC0 u)) := by
          rw [← netlocScan_recon (List.drop 2 (removeUnsafe (lstripC0 u)))]
          exact List.mem_append_right _ h2
        exact List.drop_subset 2 _ h3
      refine ⟨by simp, rfl, by simp, netlocScan_no_delim _, hlb, hrb,
        not_not.mp hascii, fun c hc => hu1_unsafe c (hnsub c hc), ?_, ?_, ?_, ?_⟩
      · intro hmem
        exact splitOnFirst_fst_not_mem '#' _ (splitOnFirst_fst_subset '?' _ _ hmem)
      · exact splitOnFirst_fst_not_mem '?' _
      · exact fun c hc => hu1_unsafe c (hpathsub c hc)
      · intro _
        rcases netlocScan_rest (List.drop 2 (removeUnsafe (lstripC0 u))) with hz | ⟨d, hd, hdel⟩
        · rw [hz]
          rw [show (splitOnFirst '?' (splitOnFirst '#' ([] : List Char)).1).1 = [] from rfl]
          constructor
          · exact Or.inl rfl
          · intro c hc; simp at hc
        · rcases hdel with rfl | rfl | rfl
          · -- head '/'
            have h1 := splitOnFirst_head_ne '#' _ '/' hd (by decide)
            have h2 := splitOnFirst_head_ne '?' _ '/' h1 (by decide)
            constructor
            · right; left
              exact ⟨'/', h2, by decide⟩
            · intro c hc
              rw [h2] at hc
              injection hc with hc
              subst hc
              decide
          · -- head '?': the path is empty after the '?' split
            have h1 := splitOnFirst_head_ne '#' _ '?' hd (by decide)
            have h2 : (splitOnFirst '?' (splitOnFirst '#'
                (netlocScan (List.drop 2 (removeUnsafe (lstripC0 u)))).2).1).1 = [] := by
              cases hx : (splitOnFirst '#'
                  (netlocScan (List.drop 2 (removeUnsafe (lstripC0 u)))).2).1 with
              | nil => rfl
              | cons e es =>
                rw [hx] at h1
                injection h1 with h1
                subst h1
                rw [splitOnFirst, if_pos rfl]
            rw [h2]
            constructor
            · exact Or.inl rfl
            · intro c hc; simp at hc
          · -- head '#': the path is empty after the '#' split
            have h2 : (splitOnFirst '#'
                (netlocScan (List.drop 2 (removeUnsafe (lstripC0 u)))).2).1 = [] := by
              cases hx : (netlocScan (List.drop 2 (removeUnsafe (lstripC0 u)))).2 with
              | nil => rw [hx] at hd; simp at hd
              | cons e es =>
                rw [hx] at hd
                injection hd with hd
                subst hd
                rw [splitOnFirst, if_pos rfl]
            rw [h2]
            constructor
            · exact Or.inl rfl
            · intro c hc
              rw [show (splitOnFirst '?' ([] : List Char)).1 = [] from rfl] at hc
              simp at hc
    · rw [if_neg htake] at h
      injection h with h
      subst h
      simp only
      have hpathpre : ∃ t, (splitOnFirst '?' (splitOnFirst '#'
          (removeUnsafe (lstripC0 u))).1).1 ++ t = removeUnsafe (lstripC0 u) := by
        obtain ⟨t1, ht1⟩ := splitOnFirst_fst_pref '?' (splitOnFirst '#'
          (removeUnsafe (lstripC0 u))).1
        obtain ⟨t2, ht2⟩ := splitOnFirst_fst_pref '#' (removeUnsafe (lstripC0 u))
        exact ⟨t1 ++ t2, by rw [← List.append_assoc, ht1, ht2]⟩
      refine ⟨by simp, rfl, by simp, by simp, by simp, by simp, by simp, by simp,
        ?_, ?_, ?_, ?_⟩
      · intro hmem
        exact splitOnFirst_fst_not_mem '#' _ (splitOnFirst_fst_subset '?' _ _ hmem)
      · exact splitOnFirst_fst_not_mem '?' _
      · intro c hc
        obtain ⟨t, ht⟩ := hpathpre
        exact hu1_unsafe c (by rw [← ht]; exact List.mem_append_left t hc)
      · intro _
        obtain ⟨t, ht⟩ := hpathpre
        constructor
        · exact noSchemeL_pref _ t (by rw [ht]; exact hns1)
        · intro c hc
          apply hu1_head
          cases hx : (splitOnFirst '?' (splitOnFirst '#'
              (removeUnsafe (lstripC0 u))).1).1 with
          | nil => rw [hx] at hc; simp at hc
          | cons e es =>
            rw [pref_head _ t _ ht (by rw [hx]; simp)]
            exact hc
  case inr =>
    have hrestsub : ∀ c ∈ rest, c ∈ removeUnsafe (lstripC0 u) := by
      intro c hc
      rw [hsch_eq]
      exact List.mem_append_right sch (List.mem_cons_of_mem ':' hc)
    have hA : ∀ c ∈ lowerL sch, isSchemeChar c = true := by
      intro c hc
      obtain ⟨d, hd, rfl⟩ := List.mem_map.mp hc
      exact pyLower_schemeChar d (hsch_chars d hd)
    have hB : lowerL (lowerL sch) = lowerL sch := lowerL_idem sch
    have hC : ∀ c, (lowerL sch).head? = some c → c.isAlpha = true := by
      intro c hc
      unfold lowerL at hc
      rw [List.head?_map] at hc
      match sch, hsch_ne, hsch_alpha, hc with
      | d :: ds, _, hsch_alpha, hc =>
        simp at hc
        rw [← hc]
        exact pyLower_isAlpha d (hsch_alpha d rfl)
    have hD : lowerL sch ≠ [] := by
      match sch, hsch_ne with
      | d :: ds, _ => simp [lowerL]
    by_cases htake : List.take 2 rest = ['/', '/']
    · rw [if_pos htake] at h
      by_cases hbr : ('[' ∈ (netlocScan (List.drop 2 rest)).1 ∧
            ']' ∉ (netlocScan (List.drop 2 rest)).1) ∨
          (']' ∈ (netlocScan (List.drop 2 rest)).1 ∧
            '[' ∉ (netlocScan (List.drop 2 rest)).1)
      · rw [if_pos hbr] at h; cases h
      rw [if_neg hbr] at h
      by_cases hlb : '[' ∈ (netlocScan (List.drop 2 rest)).1
      · rw [if_pos hlb] at h; cases h
      rw [if_neg hlb] at h
      by_cases hascii : ¬((netlocScan (List.drop 2 rest)).1.all
          (fun c => c.toNat < 128) = true)
      · rw [if_pos hascii] at h; cases h
      rw [if_neg hascii] at h
      injection h with h
      subst h
      simp only
      have hrb : ']' ∉ (netlocScan (List.drop 2 rest)).1 := by
        intro hmem
        exact hbr (Or.inr ⟨hmem, hlb⟩)
      have hnsub : ∀ c ∈ (netlocScan (List.drop 2 rest)).1,
          c ∈ removeUnsafe (lstripC0 u) := by
        intro c hc
        have h1 : c ∈ List.drop 2 rest := by
          rw [← netlocScan_recon (List.drop 2 rest)]
          exact List.mem_append_left _ hc
        exact hrestsub c (List.drop_subset 2 rest h1)
      have hpathsub : ∀ c ∈ (splitOnFirst '?' (splitOnFirst '#'
            (netlocScan (List.drop 2 rest)).2).1).1,
          c ∈ removeUnsafe (lstripC0 u) := by
        intro c hc
        have h1 := splitOnFirst_fst_subset '?' _ c hc
        have h2 := splitOnFirst_fst_subset '#' _ c h1
        have h3 : c ∈ List.drop 2 rest := by
          rw [← netlocScan_recon (List.drop 2 rest)]
          exact List.mem_append_right _ h2
        exact hrestsub c (List.drop_subset 2 rest h3)
      refine ⟨hA, hB, hC, netlocScan_no_delim _, hlb, hrb,
        not_not.mp hascii, fun c hc => hu1_unsafe c (hnsub c hc), ?_, ?_, ?_, ?_⟩
      · intro hmem
        exact splitOnFirst_fst_not_mem '#' _ (splitOnFirst_fst_subset '?' _ _ hmem)
      · exact splitOnFirst_fst_not_mem '?' _
      · exact fun c hc => hu1_unsafe c (hpathsub c hc)
      · intro ⟨hs0, _⟩
        exact absurd hs0 hD
    · rw [if_neg htake] at h
      injection h with h
      subst h
      simp only
      have hpathpre : ∃ t, (splitOnFirst '?' (splitOnFirst '#' rest).1).1 ++ t = rest := by
        obtain ⟨t1, ht1⟩ := splitOnFirst_fst_pref '?' (splitOnFirst '#' rest).1
        obtain ⟨t2, ht2⟩ := splitOnFirst_fst_pref '#' rest
        exact ⟨t1 ++ t2, by rw [← List.append_assoc, ht1, ht2]⟩
      refine ⟨hA, hB, hC, by simp, by simp, by simp, by simp, by simp, ?_, ?_, ?_, ?_⟩
      · intro hmem
        exact splitOnFirst_fst_not_mem '#' _ (splitOnFirst_fst_subset '?' _ _ hmem)
      · exact splitOnFirst_fst_not_mem '?' _
      · intro c hc
        obtain ⟨t, ht⟩ := hpathpre
        exact hu1_unsafe c (hrestsub c (by rw [← ht]; exact List.mem_append_left t hc))
      · intro ⟨hs0, _⟩
        exact absurd hs0 hD

theorem pyUrlunparse_no_params (a b c : List Char) :
    pyUrlunparse a b c [] [] [] = pyUrlunsplit a b c [] [] := by
  unfold pyUrlunparse
  rw [if_neg (by simp : ¬(([] : List Char) ≠ []))]

theorem mem_pyUrlunsplit (s n q : List Char) (c : Char) (hc : c ∈ q) :
    c ∈ pyUrlunsplit s n q [] [] := by
  have hin : c ∈ (if n ≠ [] ∨ (s ≠ [] ∧ s ∈ usesNetloc ∧ q.take 2 ≠ ['/', '/']) then
      '/' :: '/' :: (n ++ (if q ≠ [] ∧ q.take 1 ≠ ['/'] then '/' :: q else q)) else q) := by
    by_cases h2 : n ≠ [] ∨ (s ≠ [] ∧ s ∈ usesNetloc ∧ q.take 2 ≠ ['/', '/'])
    · rw [if_pos h2]
      refine List.mem_cons_of_mem '/' (List.mem_cons_of_mem '/' (List.mem_append_right n ?_))
      by_cases h3 : q ≠ [] ∧ q.take 1 ≠ ['/']
      · rw [if_pos h3]; exact List.mem_cons_of_mem '/' hc
      · rw [if_neg h3]; exact hc
    · rw [if_neg h2]; exact hc
  rw [pyUrlunsplit_empty]
  by_cases h1 : s ≠ []
  · rw [if_pos h1]
    exact List.mem_append_right s (List.mem_cons_of_mem ':' hin)
  · rw [if_neg h1]
    exact hin

theorem lowerL_netloc_props (n0 : List Char)
    (hN1 : ∀ c ∈ n0, ¬(c = '/' ∨ c = '?' ∨ c = '#'))
    (hN2 : '[' ∉ n0) (hN3 : ']' ∉ n0)
    (hN4 : n0.all (fun c => c.toNat < 128) = true)
    (hN5 : ∀ c ∈ n0, isUnsafeUrlChar c = false) :
    (∀ c ∈ lowerL n0, ¬(c = '/' ∨ c = '?' ∨ c = '#')) ∧ '[' ∉ lowerL n0 ∧
    ']' ∉ lowerL n0 ∧ (lowerL n0).all (fun c => c.toNat < 128) = true ∧
    (∀ c ∈ lowerL n0, isUnsafeUrlChar c = false) := by
  refine ⟨?_, ?_, ?_, ?_, ?_⟩
  · intro c hc hor
    obtain ⟨d, hd, rfl⟩ := List.mem_map.mp hc
    have hnd := hN1 d hd
    rcases hor with he | he | he
    · exact pyLower_ne d '/' (Or.inl (by decide)) (fun hx => hnd (Or.inl hx)) he
    · exact pyLower_ne d '?' (Or.inl (by decide)) (fun hx => hnd (Or.inr (Or.inl hx))) he
    · exact pyLower_ne d '#' (Or.inl (by decide)) (fun hx => hnd (Or.inr (Or.inr hx))) he
  · intro hc
    obtain ⟨d, hd, he⟩ := List.mem_map.mp hc
    exact pyLower_ne d '[' (Or.inl (by decide)) (fun hx => hN2 (hx ▸ hd)) he
  · intro hc
    obtain ⟨d, hd, he⟩ := List.mem_map.mp hc
    exact pyLower_ne d ']' (Or.inl (by decide)) (fun hx => hN3 (hx ▸ hd)) he
  · rw [List.all_eq_true] at hN4 ⊢
    intro c hc
    obtain ⟨d, hd, rfl⟩ := List.mem_map.mp hc
    have hdl := hN4 d hd
    simp only [decide_eq_true_eq] at hdl ⊢
    exact pyLower_toNat_lt d hdl
  · intro c hc
    obtain ⟨d, hd, rfl⟩ := List.mem_map.mp hc
    exact pyLower_not_unsafe d (hN5 d hd)

theorem canonicalizeL_idem (u v : List Char) (h : canonicalizeL u = .ok v)
    (hsemi : ';' ∉ v) : canonicalizeL v = .ok v := by
  unfold canonicalizeL pyUrlparse at h
  cases hsp : pyUrlsplit u with
  | error e => rw [hsp] at h; cases h
  | ok r =>
    rw [hsp] at h
    simp only [Except.map] at h
    obtain ⟨hA, hB, hC, hN1, hN2, hN3, hN4, hN5, hP1, hP2, hP3, hD⟩ := pyUrlsplit_inv u r hsp
    have hmain : ∀ pp : List Char, (∃ t, pp ++ t = r.path) →
        pyUrlunparse r.scheme (lowerL r.netloc) (canonPath pp) [] [] [] = v →
        canonicalizeL v = .ok v := by
      intro pp ⟨t, hppt⟩ hv
      have hppsub : ∀ c ∈ pp, c ∈ r.path := by
        intro c hc
        rw [← hppt]
        exact List.mem_append_left t hc
      rw [pyUrlunparse_no_params] at hv
      obtain ⟨hn1, hn2, hn3, hn4, hn5⟩ := lowerL_netloc_props r.netloc hN1 hN2 hN3 hN4 hN5
      rw [← hv]
      refine unsplit_canon_stable r.scheme (lowerL r.netloc) (canonPath pp)
        hC hB hA hn1 hn2 hn3 hn4 hn5 (lowerL_idem r.netloc)
        (canonPath_ne_nil pp) (canonPath_noDup pp) ?_ ?_ ?_ ?_ (canonPath_last pp) ?_
      · intro hm
        rcases canonPath_subset pp '#' hm with hm2 | hm2
        · exact hP1 (hppsub _ hm2)
        · cases hm2
      · intro hm
        rcases canonPath_subset pp '?' hm with hm2 | hm2
        · exact hP2 (hppsub _ hm2)
        · cases hm2
      · intro hm
        apply hsemi
        rw [← hv]
        exact mem_pyUrlunsplit _ _ _ ';' hm
      · intro c hc
        rcases canonPath_subset pp c hc with hm2 | hm2
        · exact hP3 c (hppsub _ hm2)
        · rw [hm2]; decide
      · intro ⟨hs0, hn0⟩
        have hn00 : r.netloc = [] := by
          cases hx : r.netloc with
          | nil => rfl
          | cons d ds =>
            rw [hx] at hn0
            unfold lowerL at hn0
            cases hn0
        obtain ⟨hnos, hhead⟩ := hD ⟨hs0, hn00⟩
        have hnospp : noSchemeL pp := noSchemeL_pref pp t (by rw [hppt]; exact hnos)
        refine ⟨noSchemeL_canonPath pp hnospp, ?_⟩
        intro c hc
        rcases canonPath_head pp with hh | hh
        · rw [hh] at hc
          have hppne : pp ≠ [] := by
            intro hz
            rw [hz] at hc
            cases hc
          apply hhead
          rw [pref_head pp t r.path hppt hppne]
          exact hc
        · rw [hh] at hc
          injection hc with hc
          subst hc
          decide
    by_cases hpar : r.scheme ∈ usesParams ∧ ';' ∈ r.path
    · rw [if_pos hpar] at h
      injection h with h
      exact hmain (splitParamsL r.path).1 (splitParamsL_fst_pref r.path) h
    · rw [if_neg hpar] at h
      injection h with h
      exact hmain r.path ⟨[], List.append_nil _⟩ h

/-- C6 counterexample: canonicalize_url is not idempotent.  For the URL
"a;b/" the first application yields "a;b" (the trailing slash is stripped,
and no parameter split occurs because the last path segment "b/"…"" holds no
semicolon after the final slash), but reapplying it to "a;b" now splits the
";b" suffix off as path parameters and returns "a". -/
theorem claimC6_counterexample :
    canonicalize_url "a;b/" = .ok "a;b" ∧ canonicalize_url "a;b" = .ok "a" ∧
    (Except.ok "a" : Except Unit String) ≠ .ok "a;b" :=
  ⟨by decide, by decide, by decide⟩

/-- C6 (amended): canonicalize_url is idempotent on every URL whose canonical
form carries no semicolon: if canonicalize_url u succeeds with value v and
';' does not occur in v, then canonicalize_url v = v.  (A semicolon in the
final path segment of the canonical form is re-split as path parameters by
the next urlparse and breaks idempotence, as the counterexample shows.) -/
theorem claimC6_theorem (u v : String) (h : canonicalize_url u = .ok v)
    (hsemi : ';' ∉ v.toList) : canonicalize_url v = .ok v := by
  unfold canonicalize_url at h ⊢
  cases hc : canonicalizeL u.toList with
  | error e => rw [hc] at h; cases h
  | ok w =>
    rw [hc] at h
    simp only [Except.map] at h
    injection h with h
    subst h
    have hw : (String.mk w).toList = w := rfl
    rw [hw, canonicalizeL_idem u.toList w hc hsemi]
    rfl

/-- C6 witness: a URL with uppercase host, duplicate and trailing slashes
canonicalizes to "http://e.com/x", on which canonicalize_url is a fixed
point by the theorem. -/
theorem claimC6_witness : canonicalize_url "http://e.com/x" = .ok "http://e.com/x" :=
  claimC6_theorem "http://E.com//x/" "http://e.com/x" (by decide) (by decide)

/-! ## The collection pipeline (fetchers.py, parser.py, utils.py)

Third-party library boundaries (`requests`, `feedparser`, `BeautifulSoup`,
`RobotFileParser`, the `datetime` parsers) are environment functions; all
repository logic is translated directly.  The `DomainLimiter.wait` call only
sleeps (its observable effect is timing, which a shallow embedding does not
model) and is omitted. -/

/-- The Article record as the collection pipeline reads and writes it.
utils.py declares the dataclass with fields `title`, `date_iso`, `excerpt`,
while fetchers.py constructs and accesses `title_en`, `date`, `excerpt_en`
(a latent mismatch in the repository); the embedding uses the names the
pipeline itself reads and writes. -/
structure Article where
  source : String
  title_en : String
  url : String
  date : String
  excerpt_en : String
  text_for_nlp : String
deriving Repr, DecidableEq

/-- The per-source diagnostics dictionary initialized in _collect_source. -/
structure Diag where
  urls_discovered : Nat
  urls_attempted : Nat
  articles_fetched : Nat
  articles_kept : Nat
  dropped_out_of_range : Nat
  kept_missing_date : Nat
  request_failed : Nat
  robots_disallow : Nat
  listing_changed : Nat
  paywall_or_no_content : Nat
  deduped : Nat
deriving Repr, DecidableEq

def diag0 : Diag := ⟨0, 0, 0, 0, 0, 0, 0, 0, 0, 0, 0⟩

/-- Outcome of `requests.Session.get`: a status/body response, or a raised
`RequestException`. -/
inductive HttpResp where
  | ok (status : Nat) (body : String)
  | exn

/-- The BeautifulSoup view of an article page: for each selector parser.py
consults, the value the code tests (none when the node or its attribute is
missing).  `date_found` is the result of `_extract_date` (its candidates all
pass through `parse_date_to_iso`, which delegates to the datetime library);
`visible_text` is the result of `_extract_visible_text` (pure BeautifulSoup
traversal). -/
structure Doc where
  canonical_href : Option String
  og_url : Option String
  og_title : Option String
  twitter_title : Option String
  h1_text : Option String
  title_text : Option String
  og_desc : Option String
  meta_desc : Option String
  article_p : Option String
  p_text : Option String
  date_found : Option String
  visible_text : String
deriving Repr, DecidableEq

def pyStripS (s : String) : String := ⟨stripWs s.toList⟩

/-- The selector loop shared by parser.py extractors: the first candidate
whose tested value is truthy (present and non-empty) wins. -/
def firstTruthy : List (Option String) → Option String
  | [] => none
  | some v :: rest => if v ≠ "" then some v else firstTruthy rest
  | none :: rest => firstTruthy rest

/-- parser._extract_canonical_url: canonical link `href`, else `og:url`
content, the winner stripped; `none` when neither is truthy. -/
def extract_canonical_url (d : Doc) : Option String :=
  (firstTruthy [d.canonical_href, d.og_url]).map pyStripS

/-- parser._extract_title: `og:title` → `twitter:title` → first `h1` →
`title`, the winner stripped; otherwise the literal "Untitled". -/
def extract_title (d : Doc) : String :=
  match firstTruthy [d.og_title, d.twitter_title, d.h1_text, d.title_text] with
  | some v => pyStripS v
  | none => "Untitled"

/-- parser._extract_excerpt: `og:description` → `meta description` →
`article p` → `p`, the winner returned unstripped; "" when none is truthy. -/
def extract_excerpt (d : Doc) : String :=
  (firstTruthy [d.og_desc, d.meta_desc, d.article_p, d.p_text]).getD ""

/-- parser._extract_date (see `Doc.date_found`). -/
def extract_date (d : Doc) : Option String := d.date_found

structure Parsed where
  canonical_url : String
  title : String
  date : String
  excerpt : String
  text : String
deriving Repr, DecidableEq

/-- parser.extract_article_metadata. -/
def extract_article_metadata (d : Doc) (original_url : String) : Parsed :=
  { canonical_url := match extract_canonical_url d with
      | some v => if v ≠ "" then v else original_url
      | none => original_url
    title := extract_title d
    date := (extract_date d).getD ""
    excerpt := safe_excerpt
      (if extract_excerpt d ≠ "" then extract_excerpt d else d.visible_text) 300
    text := d.visible_text }

/-- A feed entry as feedparser exposes it (`summary_text` is the entry
summary already flattened through BeautifulSoup.get_text, library code). -/
structure FeedEntry where
  link : Option String
  title : Option String
  published : Option String
  updated : Option String
  summary_text : String

/-- The third-party boundaries of fetchers.py.  `robotsRead` is the robots
file of an origin: `none` when `RobotFileParser.read()` raised, otherwise
the `can_fetch(USER_AGENT, ·)` predicate of the parsed file.
`listingLinks` gives the candidate URLs of a listing page after the
`soup.select("a[href]")` walk, the `if not href: continue` skip and the
`urljoin` against the listing URL (all library code);
`fromiso` is `datetime.fromisoformat` + timezone normalization of
`in_date_window`, as an instant in the reference timezone. -/
structure Env where
  http : String → HttpResp
  robotsRead : String → Option (String → Bool)
  feedEntries : String → List FeedEntry
  listingLinks : String → List String
  doc : String → Doc
  pdti : String → Option String
  fromiso : String → Option Int

/-- The NewsCollector construction parameters the claims involve. -/
structure Collector where
  start : Int
  e : Int
  maxPerSource : Nat
  useCache : Bool

/-- The mutable collector state: on-disk cache (keyed by URL — the sha256
file name of cache_path_for_url is a deterministic, collision-free function
of the URL), the per-origin robots cache `self._robots`, and a count of the
`session.get` network calls performed. -/
structure St where
  cache : List (String × String)
  robots : List (String × Option (String → Bool))
  netCalls : Nat

def lookupStr {β : Type} (k : String) : List (String × β) → Option β
  | [] => none
  | (k2, v) :: rest => if k = k2 then some v else lookupStr k rest

/-- utils.in_date_window: parse the ISO date (exceptions give none, hence
False) and test `start <= dt <= end`, both bounds inclusive. -/
def in_date_window (fromiso : String → Option Int) (date_iso : String)
    (start e : Int) : Bool :=
  match fromiso date_iso with
  | none => false
  | some t => start ≤ t && t ≤ e

/-- utils.dedupe_articles, seen-set pass (first occurrence of each canonical
key wins; no diagnostics are touched). -/
def dedupeAux (seen : List String) : List Article → Except Unit (List Article)
  | [] => .ok []
  | a :: rest =>
    match canonicalize_url a.url with
    | .error e => .error e
    | .ok key =>
      if key ∈ seen then dedupeAux seen rest
      else
        match dedupeAux (key :: seen) rest with
        | .error e => .error e
        | .ok out => .ok (a :: out)

/-- utils.dedupe_articles. -/
def dedupe_articles (articles : List Article) : Except Unit (List Article) :=
  dedupeAux [] articles

/-- NewsCollector._can_fetch: compute the origin (urlparse can raise),
consult the per-origin robots cache, reading and caching on a miss;
a missing/None parser means default-permit. -/
def can_fetch (env : Env) (url : String) (st : St) : Except Unit (Bool × St) :=
  match pyUrlsplit url.toList with
  | .error e => .error e
  | .ok r =>
    let root : String := ⟨r.scheme ++ (':' :: '/' :: '/' :: r.netloc)⟩
    match lookupStr root st.robots with
    | some rp => .ok ((match rp with | none => true | some f => f url), st)
    | none =>
      let rp := env.robotsRead root
      .ok ((match rp with | none => true | some f => f url),
        { st with robots := (root, rp) :: st.robots })

/-- NewsCollector._fetch_text: cache-first (when enabled), then a network
GET; status >= 400 or a transport exception count as request_failed and
yield None; success writes the cache when enabled. -/
def fetch_text (c : Collector) (env : Env) (url : String) (diag : Diag) (st : St) :
    Option String × Diag × St :=
  if c.useCache ∧ (lookupStr url st.cache).isSome then
    (lookupStr url st.cache, diag, st)
  else
    let st := { st with netCalls := st.netCalls + 1 }
    match env.http url with
    | .exn => (none, { diag with request_failed := diag.request_failed + 1 }, st)
    | .ok status body =>
      if 400 ≤ status then
        (none, { diag with request_failed := diag.request_failed + 1 }, st)
      else
        (some body, diag,
          if c.useCache then { st with cache := (url, body) :: st.cache } else st)

/-- NewsCollector._should_keep. -/
def should_keep (c : Collector) (env : Env) (a : Article) (diag : Diag) :
    Bool × Diag :=
  if a.date ≠ "" then
    if ¬ in_date_window env.fromiso a.date c.start c.e then
      (false, { diag with dropped_out_of_range := diag.dropped_out_of_range + 1 })
    else (true, diag)
  else (true, { diag with kept_missing_date := diag.kept_missing_date + 1 })

/-- NewsCollector._fetch_article_page. -/
def fetch_article_page (c : Collector) (env : Env) (a : Article) (diag : Diag)
    (st : St) : Except Unit (Article × Diag × St) :=
  match can_fetch env a.url st with
  | .error e => .error e
  | .ok (cf, st) =>
    if ¬ cf then
      .ok (a, { diag with robots_disallow := diag.robots_disallow + 1 }, st)
    else
      let diag := { diag with urls_attempted := diag.urls_attempted + 1 }
      match fetch_text c env a.url diag st with
      | (none, diag, st) => .ok (a, diag, st)
      | (some html, diag, st) =>
        let diag := { diag with articles_fetched := diag.articles_fetched + 1 }
        let parsed := extract_article_metadata (env.doc html) a.url
        let url2 := if parsed.canonical_url ≠ "" then parsed.canonical_url else a.url
        let title2 := if parsed.title ≠ "" then parsed.title else a.title_en
        let date2 := if parsed.date ≠ "" then parsed.date else a.date
        let excerpt2 := safe_excerpt
          (if parsed.excerpt ≠ "" then parsed.excerpt else a.excerpt_en) 300
        let text2 := if parsed.text ≠ "" then parsed.text
          else title2 ++ ". " ++ excerpt2
        let a2 : Article :=
          { a with
            url := url2
            title_en := title2
            date := date2
            excerpt_en := excerpt2
            text_for_nlp := text2 }
        let diag := if excerpt2 = "" ∧ text2 = "" then
          { diag with paywall_or_no_content := diag.paywall_or_no_content + 1 }
          else diag
        .ok (a2, diag, st)

/-- Python `needle in hay` scaffolding: does `hay` start with `nd`? -/
def startsWithL : List Char → List Char → Bool
  | [], _ => true
  | _ :: _, [] => false
  | a :: as, b :: bs => a = b && startsWithL as bs

/-- Python `needle in hay` on the character lists. -/
def containsL (nd : List Char) : List Char → Bool
  | [] => startsWithL nd []
  | c :: cs => startsWithL nd (c :: cs) || containsL nd cs

/-- Python substring test `needle in hay` on Strings. -/
def substrS (needle hay : String) : Bool := containsL needle.toList hay.toList

/-- The Article a feed entry builds in _collect_from_rss: title from the
entry title (`or "Untitled"`, then .strip()), date through parse_date_to_iso
of the first truthy of published/updated (else ""), excerpt from the
flattened summary through safe_excerpt. -/
def entry_article (env : Env) (source : String) (e : FeedEntry) (url : String) :
    Article :=
  { source := source
    title_en := pyStripS ((firstTruthy [e.title]).getD "Untitled")
    url := url
    date := (env.pdti ((firstTruthy [e.published, e.updated]).getD "")).getD ""
    excerpt_en := safe_excerpt e.summary_text 300
    text_for_nlp := "" }

/-- The entry loop of _collect_from_rss: skip falsy links, count
urls_discovered, skip entries whose canonical URL is already seen, enrich
and filter the rest. -/
def rss_loop (c : Collector) (env : Env) (source : String)
    (entries : List FeedEntry) (seen : List String) (diag : Diag) (st : St) :
    Except Unit (List Article × Diag × St) :=
  match entries with
  | [] => .ok ([], diag, st)
  | e :: rest =>
    match e.link with
    | none => rss_loop c env source rest seen diag st
    | some url =>
      if url = "" then rss_loop c env source rest seen diag st
      else
        let diag := { diag with urls_discovered := diag.urls_discovered + 1 }
        match canonicalize_url url with
        | .error er => .error er
        | .ok key =>
          if key ∈ seen then rss_loop c env source rest seen diag st
          else
            match fetch_article_page c env (entry_article env source e url) diag st with
            | .error er => .error er
            | .ok (a2, diag, st) =>
              let kd := should_keep c env a2 diag
              match rss_loop c env source rest seen kd.2 st with
              | .error er => .error er
              | .ok (out, diag, st) =>
                .ok ((if kd.1 then a2 :: out else out), diag, st)

/-- NewsCollector._collect_from_rss. -/
def collect_from_rss (c : Collector) (env : Env) (source rss_url : String)
    (seen : List String) (diag : Diag) (st : St) :
    Except Unit (List Article × Diag × St) :=
  if rss_url = "" then .ok ([], diag, st)
  else
    match can_fetch env rss_url st with
    | .error e => .error e
    | .ok (cf, st) =>
      if ¬ cf then
        .ok ([], { diag with robots_disallow := diag.robots_disallow + 1 }, st)
      else
        match fetch_text c env rss_url diag st with
        | (none, diag, st) => .ok ([], diag, st)
        | (some xml, diag, st) =>
          rss_loop c env source (env.feedEntries xml) seen diag st

/-- The link filter of _collect_from_listing: keep a joined candidate when
its netloc equals the listing page's netloc and it passes the per-source
substring filters; urlparse on either side can raise. -/
def filter_links (source listing_url : String) :
    List String → Except Unit (List String)
  | [] => .ok []
  | full :: rest =>
    match pyUrlsplit full.toList, pyUrlsplit listing_url.toList with
    | .ok rf, .ok rl =>
      if rf.netloc ≠ rl.netloc then filter_links source listing_url rest
      else if source = "Music Week" ∧ ¬ substrS "/news/" full then
        filter_links source listing_url rest
      else if source = "Music Business Worldwide" ∧ ¬ substrS "/" full then
        filter_links source listing_url rest
      else
        match filter_links source listing_url rest with
        | .error e => .error e
        | .ok out => .ok (full :: out)
    | .error e, _ => .error e
    | _, .error e => .error e

/-- `list(dict.fromkeys(urls))`: keep the first occurrence of each URL. -/
def dedupKeysAux (seen : List String) : List String → List String
  | [] => []
  | x :: rest =>
    if x ∈ seen then dedupKeysAux seen rest
    else x :: dedupKeysAux (x :: seen) rest

def dedupKeys (l : List String) : List String := dedupKeysAux [] l

/-- The URL loop of _collect_from_listing: stop at the per-source cap, skip
already-seen canonical URLs, enrich and filter the rest. -/
def listing_loop (c : Collector) (env : Env) (source : String)
    (urls : List String) (seen : List String) (acc : List Article)
    (diag : Diag) (st : St) : Except Unit (List Article × Diag × St) :=
  match urls with
  | [] => .ok (acc.reverse, diag, st)
  | url :: rest =>
    if c.maxPerSource ≤ acc.length then .ok (acc.reverse, diag, st)
    else
      match canonicalize_url url with
      | .error e => .error e
      | .ok key =>
        if key ∈ seen then listing_loop c env source rest seen acc diag st
        else
          match fetch_article_page c env
              ⟨source, "Untitled", url, "", "", ""⟩ diag st with
          | .error e => .error e
          | .ok (a2, diag, st) =>
            let kd := should_keep c env a2 diag
            listing_loop c env source rest seen
              (if kd.1 then a2 :: acc else acc) kd.2 st

/-- NewsCollector._collect_from_listing. -/
def collect_from_listing (c : Collector) (env : Env) (source listing_url : String)
    (seen : List String) (diag : Diag) (st : St) :
    Except Unit (List Article × Diag × St) :=
  match can_fetch env listing_url st with
  | .error e => .error e
  | .ok (cf, st) =>
    if ¬ cf then
      .ok ([], { diag with robots_disallow := diag.robots_disallow + 1 }, st)
    else
      match fetch_text c env listing_url diag st with
      | (none, diag, st) => .ok ([], diag, st)
      | (some html, diag, st) =>
        match filter_links source listing_url (env.listingLinks html) with
        | .error e => .error e
        | .ok urls =>
          let unique := dedupKeys urls
          let diag :=
            { diag with urls_discovered := diag.urls_discovered + unique.length }
          let diag := if unique = [] then
            { diag with listing_changed := diag.listing_changed + 1 } else diag
          listing_loop c env source unique seen [] diag st

/-- The dedupe loop of _collect_source (fetchers.py lines 90-97): a repeated
canonical key increments diag.deduped and is dropped; a fresh key is added
to `seen` and its article kept. -/
def dedupe_pass (collected : List Article) (seen : List String) (diag : Diag) :
    Except Unit (List Article × List String × Diag) :=
  match collected with
  | [] => .ok ([], seen, diag)
  | a :: rest =>
    match canonicalize_url a.url with
    | .error e => .error e
    | .ok key =>
      if key ∈ seen then
        dedupe_pass rest seen { diag with deduped := diag.deduped + 1 }
      else
        match dedupe_pass rest (key :: seen) diag with
        | .error e => .error e
        | .ok (out, seen2, diag2) => .ok (a :: out, seen2, diag2)

/-- Source configuration entries of the SOURCES dict. -/
structure Cfg where
  mode : Option String
  listing_url : String
  rss_url : Option String

/-- The tail of _collect_source: dedupe the collected list, cap it at the
per-source maximum, and record articles_kept. -/
def finalize_source (c : Collector) (collected : List Article)
    (seen : List String) (diag : Diag) (st : St) :
    Except Unit (List Article × Diag × St) :=
  match dedupe_pass collected seen diag with
  | .error e => .error e
  | .ok (ded, _, diag) =>
    let ded2 := ded.take c.maxPerSource
    .ok (ded2, { diag with articles_kept := ded2.length }, st)

/-- NewsCollector._collect_source. -/
def collect_source (c : Collector) (env : Env) (source : String) (cfg : Cfg)
    (st : St) : Except Unit (List Article × Diag × St) :=
  if cfg.mode = some "rss_primary" then
    match collect_from_rss c env source (cfg.rss_url.getD "") [] diag0 st with
    | .error e => .error e
    | .ok (as1, diag, st) =>
      match (if as1.length < c.maxPerSource then
          collect_from_listing c env source cfg.listing_url [] diag st
        else .ok ([], diag, st)) with
      | .error e => .error e
      | .ok (as2, diag, st) => finalize_source c (as1 ++ as2) [] diag st
  else
    match collect_from_listing c env source cfg.listing_url [] diag0 st with
    | .error e => .error e
    | .ok (as1, diag, st) =>
      match (if as1.length < c.maxPerSource ∧ (cfg.rss_url.getD "") ≠ "" then
          collect_from_rss c env source (cfg.rss_url.getD "") [] diag st
        else .ok ([], diag, st)) with
      | .error e => .error e
      | .ok (as2, diag, st) => finalize_source c (as1 ++ as2) [] diag st

/-- The SOURCES dict of fetchers.py, in iteration (insertion) order. -/
def SOURCES : List (String × Cfg) :=
  [ ("Music Week",
      ⟨some "html_primary", "https://www.musicweek.com/news", none⟩),
    ("Music Business Worldwide",
      ⟨some "rss_primary", "https://www.musicbusinessworldwide.com/category/news/",
        some "https://www.musicbusinessworldwide.com/feed/"⟩) ]

/-- The per-source iteration of NewsCollector.collect, accumulating the
result dict and the diagnostics dict in source order. -/
def collect_aux (c : Collector) (env : Env) :
    List (String × Cfg) → St →
    Except Unit (List (String × List Article) × List (String × Diag) × St)
  | [], st => .ok ([], [], st)
  | (name, cfg) :: rest, st =>
    match collect_source c env name cfg st with
    | .error e => .error e
    | .ok (arts, diag, st) =>
      match collect_aux c env rest st with
      | .error e => .error e
      | .ok (res, diags, st) => .ok ((name, arts) :: res, (name, diag) :: diags, st)

/-- NewsCollector.collect over the SOURCES table. -/
def collect (c : Collector) (env : Env) (st : St) :
    Except Unit (List (String × List Article) × List (String × Diag) × St) :=
  collect_aux c env SOURCES st

/-- The cross-source merge of main.py (lines 42-43): flatten the per-source
lists in order and pass them through utils.dedupe_articles; the diagnostics
are carried past this stage untouched. -/
def main_merge_stage (by_source : List (String × List Article))
    (diags : List (String × Diag)) :
    Except Unit (List Article × List (String × Diag)) :=
  match dedupe_articles (by_source.map Prod.snd).flatten with
  | .error e => .error e
  | .ok arts => .ok (arts, diags)

/-! ## Concrete fixtures for witnesses -/

def docTriv : Doc :=
  ⟨none, none, none, none, none, none, none, none, none, none, none, ""⟩

def envTriv : Env :=
  ⟨fun _ => .exn, fun _ => none, fun _ => [], fun _ => [],
   fun _ => docTriv, fun _ => none, fun _ => none⟩

def stEmpty : St := ⟨[], [], 0⟩

def cW : Collector := ⟨0, 10, 5, true⟩

/-! ## C5: boundary behaviour of in_date_window -/

/-- C5: the collection-window filter is inclusive at both boundaries — a
date whose instant equals the window start or the window end passes, and an
instant one unit before the start or one after the end is dropped. -/
theorem claimC5_theorem (fromiso : String → Option Int) (d : String)
    (start e t : Int) (ht : fromiso d = some t) (hse : start ≤ e) :
    ((t = start ∨ t = e) → in_date_window fromiso d start e = true) ∧
    ((t = start - 1 ∨ t = e + 1) → in_date_window fromiso d start e = false) := by
  unfold in_date_window
  rw [ht]
  constructor
  · rintro (rfl | rfl) <;> simp [hse]
  · rintro (rfl | rfl)
    · simp
    · simp

theorem claimC5_witness :
    in_date_window (fun _ => some 5) "2026-01-05" 5 7 = true ∧
    in_date_window (fun _ => some 8) "2026-01-08" 5 7 = false :=
  ⟨(claimC5_theorem (fun _ => some 5) "2026-01-05" 5 7 5 rfl (by decide)).1
      (Or.inl rfl),
   (claimC5_theorem (fun _ => some 8) "2026-01-08" 5 7 8 rfl (by decide)).2
      (Or.inr rfl)⟩

/-! ## C7: the keep/drop decision and its diagnostics -/

/-- C7: a dated candidate outside the window is dropped with
dropped_out_of_range incremented by exactly one; a candidate with no date
is kept with kept_missing_date incremented by exactly one; a dated
in-window candidate is kept with the diagnostics unchanged. -/
theorem claimC7_theorem (c : Collector) (env : Env) (a : Article) (diag : Diag) :
    (a.date ≠ "" → in_date_window env.fromiso a.date c.start c.e = false →
      should_keep c env a diag =
        (false, { diag with
            dropped_out_of_range := diag.dropped_out_of_range + 1 })) ∧
    (a.date = "" →
      should_keep c env a diag =
        (true, { diag with kept_missing_date := diag.kept_missing_date + 1 })) ∧
    (a.date ≠ "" → in_date_window env.fromiso a.date c.start c.e = true →
      should_keep c env a diag = (true, diag)) := by
  refine ⟨fun hd hw => ?_, fun hd => ?_, fun hd hw => ?_⟩
  · unfold should_keep
    rw [if_pos hd, if_pos (by rw [hw]; exact fun h => by cases h)]
  · unfold should_keep
    rw [if_neg (by simpa using hd)]
  · unfold should_keep
    rw [if_pos hd, if_neg (by rw [hw]; exact fun h => h rfl)]

theorem claimC7_witness :
    should_keep cW envTriv ⟨"s", "t", "u", "", "e", ""⟩ diag0 =
      (true, { diag0 with kept_missing_date := 1 }) :=
  (claimC7_theorem cW envTriv ⟨"s", "t", "u", "", "e", ""⟩ diag0).2.1 rfl

/-! ## C2: caching behaviour of _fetch_text -/

def envOk : Env :=
  ⟨fun _ => .ok 200 "B", fun _ => none, fun _ => [], fun _ => [],
   fun _ => docTriv, fun _ => none, fun _ => none⟩

/-- C2 counterexample: with caching enabled but the first request failing
(a transport exception), nothing is cached, so a second call for the same
URL performs a second network request — two calls in total, not one. -/
theorem claimC2_counterexample :
    cW.useCache = true ∧
    (fetch_text cW envTriv "u"
        (fetch_text cW envTriv "u" diag0 stEmpty).2.1
        (fetch_text cW envTriv "u" diag0 stEmpty).2.2).2.2.netCalls = 2 ∧
    (2 : Nat) ≠ 1 :=
  ⟨rfl, rfl, by decide⟩

/-- C2 (amended): with caching enabled, once a call to _fetch_text for a
URL succeeds, a second call for that URL is a pure cache hit — it returns
the same body and changes neither the diagnostics nor the state — and the
first call performed at most one network request (none when the URL was
already cached, exactly one otherwise). -/
theorem claimC2_theorem (c : Collector) (env : Env) (url : String)
    (diag : Diag) (st : St) (body : String)
    (hc : c.useCache = true)
    (h : (fetch_text c env url diag st).1 = some body) :
    fetch_text c env url (fetch_text c env url diag st).2.1
        (fetch_text c env url diag st).2.2 =
      (some body, (fetch_text c env url diag st).2.1,
        (fetch_text c env url diag st).2.2) ∧
    (fetch_text c env url diag st).2.2.netCalls =
      (if (lookupStr url st.cache).isSome then st.netCalls
       else st.netCalls + 1) := by
  by_cases hm : (lookupStr url st.cache).isSome = true
  · have h1 : fetch_text c env url diag st = (lookupStr url st.cache, diag, st) := by
      unfold fetch_text
      rw [if_pos ⟨hc, hm⟩]
    rw [h1] at h
    have hL : lookupStr url st.cache = some body := h
    rw [h1]
    refine ⟨?_, ?_⟩
    · show fetch_text c env url diag st = (some body, diag, st)
      rw [h1, hL]
    · show st.netCalls = if (lookupStr url st.cache).isSome then st.netCalls else st.netCalls + 1
      rw [if_pos hm]
  · have hcond : ¬ (c.useCache = true ∧ (lookupStr url st.cache).isSome = true) :=
      fun hh => hm hh.2
    cases henv : env.http url with
    | exn =>
      have h1 : fetch_text c env url diag st =
          (none, { diag with request_failed := diag.request_failed + 1 },
            { st with netCalls := st.netCalls + 1 }) := by
        simp only [fetch_text, if_neg hcond, henv]
      rw [h1] at h
      exact absurd h (by simp)
    | ok status b0 =>
      by_cases hs : 400 ≤ status
      · have h1 : fetch_text c env url diag st =
            (none, { diag with request_failed := diag.request_failed + 1 },
              { st with netCalls := st.netCalls + 1 }) := by
          simp only [fetch_text, if_neg hcond, henv, if_pos hs]
        rw [h1] at h
        exact absurd h (by simp)
      · have h1 : fetch_text c env url diag st =
            (some b0, diag, { st with netCalls := st.netCalls + 1, cache := (url, b0) :: st.cache }) := by
          simp only [fetch_text, if_neg hcond, henv, if_neg hs, if_pos hc]
        have hb : b0 = body := by
          rw [h1] at h
          exact Option.some.inj h
        subst hb
        rw [h1]
        have hL2 : lookupStr url ({ st with netCalls := st.netCalls + 1, cache := (url, b0) :: st.cache } : St).cache = some b0 := by
          show lookupStr url ((url, b0) :: st.cache) = some b0
          unfold lookupStr
          rw [if_pos rfl]
        refine ⟨?_, ?_⟩
        · show fetch_text c env url diag { st with netCalls := st.netCalls + 1, cache := (url, b0) :: st.cache } = (some b0, diag, { st with netCalls := st.netCalls + 1, cache := (url, b0) :: st.cache })
          unfold fetch_text
          rw [if_pos ⟨hc, by rw [hL2]; rfl⟩, hL2]
        · show st.netCalls + 1 = if (lookupStr url st.cache).isSome then st.netCalls else st.netCalls + 1
          rw [if_neg hm]

theorem claimC2_witness :
    fetch_text cW envOk "u" (fetch_text cW envOk "u" diag0 stEmpty).2.1
        (fetch_text cW envOk "u" diag0 stEmpty).2.2 =
      (some "B", (fetch_text cW envOk "u" diag0 stEmpty).2.1,
        (fetch_text cW envOk "u" diag0 stEmpty).2.2) ∧
    (fetch_text cW envOk "u" diag0 stEmpty).2.2.netCalls =
      (if (lookupStr "u" stEmpty.cache).isSome then stEmpty.netCalls
       else stEmpty.netCalls + 1) :=
  claimC2_theorem cW envOk "u" diag0 stEmpty "B" rfl rfl

/-! ## C3: robots.txt gating -/

/-- The robots parser _can_fetch would consult for an origin: the cached
entry when present, otherwise the one a fresh RobotFileParser.read yields
(fetchers.py lines 240-248). -/
def robotsFor (env : Env) (st : St) (root : String) : Option (String → Bool) :=
  match lookupStr root st.robots with
  | some rp => rp
  | none => env.robotsRead root

/-- A successful urlparse makes _can_fetch return the verdict of the
effective robots parser, leaving network count and cache untouched. -/
theorem can_fetch_ok (env : Env) (url : String) (st : St) (r : SplitRes)
    (hr : pyUrlsplit url.toList = .ok r) :
    ∃ st2, can_fetch env url st =
        .ok ((match robotsFor env st ⟨r.scheme ++ (':' :: '/' :: '/' :: r.netloc)⟩ with
              | none => true
              | some f => f url), st2) ∧
      st2.netCalls = st.netCalls ∧ st2.cache = st.cache := by
  cases hl : lookupStr (⟨r.scheme ++ (':' :: '/' :: '/' :: r.netloc)⟩ : String) st.robots with
  | some rp =>
    refine ⟨st, ?_, rfl, rfl⟩
    simp only [can_fetch, hr, robotsFor, hl]
  | none =>
    refine ⟨{ st with robots := (⟨r.scheme ++ (':' :: '/' :: '/' :: r.netloc)⟩,
        env.robotsRead ⟨r.scheme ++ (':' :: '/' :: '/' :: r.netloc)⟩) :: st.robots }, ?_, rfl, rfl⟩
    simp only [can_fetch, hr, robotsFor, hl]

/-- _fetch_text never changes the urls_attempted or robots_disallow
diagnostics. -/
theorem fetch_text_diag (c : Collector) (env : Env) (url : String)
    (diag : Diag) (st : St) :
    (fetch_text c env url diag st).2.1.urls_attempted = diag.urls_attempted ∧
    (fetch_text c env url diag st).2.1.robots_disallow = diag.robots_disallow := by
  unfold fetch_text
  split
  · exact ⟨rfl, rfl⟩
  · split
    · exact ⟨rfl, rfl⟩
    · split
      · exact ⟨rfl, rfl⟩
      · exact ⟨rfl, rfl⟩

theorem diag_paywall_proj (p : Prop) [inst : Decidable p] (d : Diag) :
    (if p then { d with paywall_or_no_content := d.paywall_or_no_content + 1 }
     else d).urls_attempted = d.urls_attempted ∧
    (if p then { d with paywall_or_no_content := d.paywall_or_no_content + 1 }
     else d).robots_disallow = d.robots_disallow := by
  by_cases h : p
  · rw [if_pos h]
    exact ⟨rfl, rfl⟩
  · rw [if_neg h]
    exact ⟨rfl, rfl⟩

set_option maxHeartbeats 1000000 in
/-- C3: when the effective robots parser of a URL's origin exists
(successfully parsed) and disallows the URL, _fetch_article_page performs
no fetch of the URL — the state's network count and cache are unchanged —
and increments robots_disallow; when the origin has no usable robots
parser (retrieval or parse failed), the fetch proceeds as if permitted:
the call returns normally with urls_attempted incremented and
robots_disallow untouched. -/
theorem claimC3_theorem (c : Collector) (env : Env) (a : Article) (diag : Diag)
    (st : St) (r : SplitRes) (hr : pyUrlsplit a.url.toList = .ok r) :
    (∀ f, robotsFor env st ⟨r.scheme ++ (':' :: '/' :: '/' :: r.netloc)⟩ = some f →
        f a.url = false →
      ∃ st2, fetch_article_page c env a diag st =
          .ok (a, { diag with robots_disallow := diag.robots_disallow + 1 }, st2) ∧
        st2.netCalls = st.netCalls ∧ st2.cache = st.cache) ∧
    (robotsFor env st ⟨r.scheme ++ (':' :: '/' :: '/' :: r.netloc)⟩ = none →
      ∃ a2 diag2 st2, fetch_article_page c env a diag st = .ok (a2, diag2, st2) ∧
        diag2.urls_attempted = diag.urls_attempted + 1 ∧
        diag2.robots_disallow = diag.robots_disallow) := by
  obtain ⟨st2, hcf, hn, hcc⟩ := can_fetch_ok env a.url st r hr
  constructor
  · intro f hf hfa
    rw [hf] at hcf
    refine ⟨st2, ?_, hn, hcc⟩
    simp only [fetch_article_page, hcf, hfa]
    rw [if_pos (by decide)]
  · intro hnone
    rw [hnone] at hcf
    have hgate : fetch_article_page c env a diag st =
        (match fetch_text c env a.url
            { diag with urls_attempted := diag.urls_attempted + 1 } st2 with
         | (none, diag2, st3) => .ok (a, diag2, st3)
         | (some html, diag2, st3) =>
           let diag3 := { diag2 with articles_fetched := diag2.articles_fetched + 1 }
           let parsed := extract_article_metadata (env.doc html) a.url
           let url2 := if parsed.canonical_url ≠ "" then parsed.canonical_url else a.url
           let title2 := if parsed.title ≠ "" then parsed.title else a.title_en
           let date2 := if parsed.date ≠ "" then parsed.date else a.date
           let excerpt2 := safe_excerpt
             (if parsed.excerpt ≠ "" then parsed.excerpt else a.excerpt_en) 300
           let text2 := if parsed.text ≠ "" then parsed.text
             else title2 ++ ". " ++ excerpt2
           let a2 : Article :=
             { a with
               url := url2
               title_en := title2
               date := date2
               excerpt_en := excerpt2
               text_for_nlp := text2 }
           let diag4 := if excerpt2 = "" ∧ text2 = "" then
             { diag3 with paywall_or_no_content := diag3.paywall_or_no_content + 1 }
             else diag3
           .ok (a2, diag4, st3)) := by
      simp only [fetch_article_page, hcf]
      rw [if_neg (by decide)]
    have hft := fetch_text_diag c env a.url
      { diag with urls_attempted := diag.urls_attempted + 1 } st2
    rcases hft2 : fetch_text c env a.url
        { diag with urls_attempted := diag.urls_attempted + 1 } st2 with ⟨o, d2, s2⟩
    rw [hft2] at hft hgate
    cases o with
    | none => exact ⟨a, d2, s2, hgate, hft.1, hft.2⟩
    | some html =>
      refine ⟨_, _, _, hgate, ?_, ?_⟩
      · exact ((diag_paywall_proj _ _).1).trans hft.1
      · exact ((diag_paywall_proj _ _).2).trans hft.2

def stRob : St := ⟨[], [("http://h", some (fun _ => false))], 0⟩

def aW : Article := ⟨"s", "T", "http://h/x", "", "", ""⟩

theorem claimC3_witness :
    ∃ st2, fetch_article_page cW envTriv aW diag0 stRob =
        .ok (aW, { diag0 with robots_disallow := 1 }, st2) ∧
      st2.netCalls = stRob.netCalls ∧ st2.cache = stRob.cache :=
  (claimC3_theorem cW envTriv aW diag0 stRob
      ⟨"http".toList, "h".toList, "/x".toList, [], []⟩ (by decide)).1
    (fun _ => false) rfl rfl

/-! ## C9: enrichment never loses content (support lemmas) -/

theorem ne_empty_of_mem (s : String) (ch : Char) (h : ch ∈ s.toList) : s ≠ "" := by
  intro hs
  subst hs
  simp at h

theorem mem_of_head_opt (l : List Char) (c : Char) (h : l.head? = some c) :
    c ∈ l := by
  cases l with
  | nil => simp at h
  | cons x xs =>
    simp at h
    subst h
    exact List.mem_cons_self x xs

theorem mem_dropWhile_neg (p : Char → Bool) (ch : Char) :
    ∀ l : List Char, ch ∈ l → p ch = false → ch ∈ l.dropWhile p := by
  intro l
  induction l with
  | nil => intro h _; simp at h
  | cons x xs ih =>
    intro h hp
    rw [List.dropWhile_cons]
    by_cases hx : p x = true
    · rw [if_pos hx]
      rcases List.mem_cons.mp h with rfl | hmem
      · rw [hp] at hx
        cases hx
      · exact ih hmem hp
    · rw [if_neg hx]
      exact h

theorem rstripWs_ne_nil (ch : Char) :
    ∀ l : List Char, ch ∈ l → isPyWs ch = false → rstripWs l ≠ [] := by
  intro l
  induction l with
  | nil => intro h _; simp at h
  | cons x xs ih =>
    intro h hws
    rw [rstripWs]
    rcases List.mem_cons.mp h with rfl | hmem
    · rw [if_neg (fun hh => by rw [hws] at hh; exact Bool.false_ne_true hh.2)]
      simp
    · rw [if_neg (fun hh => ih hmem hws hh.1)]
      simp

theorem pyStripS_ne_empty (v : String) (ch : Char) (h : ch ∈ v.toList)
    (hws : isPyWs ch = false) : pyStripS v ≠ "" := by
  unfold pyStripS stripWs
  intro he
  have hl : rstripWs (v.toList.dropWhile isPyWs) = [] := congrArg String.toList he
  exact rstripWs_ne_nil ch _ (mem_dropWhile_neg isPyWs ch v.toList h hws) hws hl

theorem pySplitAux_ne_nil_acc : ∀ (cs acc : List Char), acc ≠ [] →
    pySplitAux cs acc ≠ [] := by
  intro cs
  induction cs with
  | nil =>
    intro acc hacc
    rw [pySplitAux, if_neg hacc]
    simp
  | cons c cs ih =>
    intro acc hacc
    rw [pySplitAux]
    by_cases hw : isPyWs c
    · rw [if_pos hw, if_neg hacc]
      simp
    · rw [if_neg hw]
      exact ih (c :: acc) (by simp)

theorem pySplit_ne_nil (ch : Char) :
    ∀ (cs acc : List Char), ch ∈ cs → isPyWs ch = false →
      pySplitAux cs acc ≠ [] := by
  intro cs
  induction cs with
  | nil => intro acc h _; simp at h
  | cons c cs ih =>
    intro acc h hws
    rw [pySplitAux]
    by_cases hw : isPyWs c
    · have hmem : ch ∈ cs := by
        rcases List.mem_cons.mp h with rfl | hmem
        · rw [hws] at hw
          cases hw
        · exact hmem
      rw [if_pos hw]
      by_cases he : acc = []
      · rw [if_pos he]
        exact ih [] hmem hws
      · rw [if_neg he]
        simp
    · rw [if_neg hw]
      exact pySplitAux_ne_nil_acc cs (c :: acc) (by simp)

/-- A string with a non-whitespace character has a non-empty excerpt. -/
theorem safe_excerpt_ne_empty (s : String)
    (h : ∃ ch ∈ s.toList, isPyWs ch = false) : safe_excerpt s 300 ≠ "" := by
  obtain ⟨ch, hmem, hws⟩ := h
  unfold safe_excerpt safeExcerptL
  intro he
  have hl : (if (joinSp (pySplit s.toList)).length ≤ 300 then joinSp (pySplit s.toList)
      else rstripWs ((joinSp (pySplit s.toList)).take (300 - 3)) ++ ['.', '.', '.']) = [] :=
    congrArg String.toList he
  by_cases hc : (joinSp (pySplit s.toList)).length ≤ 300
  · rw [if_pos hc] at hl
    have hsp : pySplit s.toList ≠ [] := pySplit_ne_nil ch s.toList [] hmem hws
    match hps : pySplit s.toList with
    | [] => exact hsp hps
    | p :: ps =>
      have hp : p ≠ [] := ((pySplit_good s.toList) p (by rw [hps]; simp)).1
      rw [hps] at hl
      exact joinSp_ne_nil p ps hp hl
  · rw [if_neg hc] at hl
    simp at hl

/-- A non-empty excerpt contains a non-whitespace character. -/
theorem safe_excerpt_has_content (s : String) (h : safe_excerpt s 300 ≠ "") :
    ∃ ch ∈ (safe_excerpt s 300).toList, isPyWs ch = false := by
  unfold safe_excerpt safeExcerptL at h ⊢
  by_cases hc : (joinSp (pySplit s.toList)).length ≤ 300
  · rw [if_pos hc] at h ⊢
    show ∃ ch ∈ joinSp (pySplit s.toList), isPyWs ch = false
    match hps : pySplit s.toList with
    | [] =>
      exfalso
      apply h
      rw [show (joinSp (pySplit s.toList)) = [] from by rw [hps]; rfl]
    | p :: ps =>
      have hp : p ≠ [] := ((pySplit_good s.toList) p (by rw [hps]; simp)).1
      match p, hp with
      | c :: p2, _ =>
        refine ⟨c, ?_, ((pySplit_good s.toList) (c :: p2) (by rw [hps]; simp)).2 c
          (List.mem_cons_self c p2)⟩
        exact mem_of_head_opt _ c (joinSp_head (c :: p2) ps (by simp))
  · rw [if_neg hc] at h ⊢
    show ∃ ch ∈ rstripWs ((joinSp (pySplit s.toList)).take (300 - 3)) ++ ['.', '.', '.'],
      isPyWs ch = false
    refine ⟨'.', ?_, by decide⟩
    exact List.mem_append_right _ (by simp)

def aC9 : Article := ⟨"s", "T", "http://h/x", "", " ", "txt"⟩

/-- C9 counterexample: an article whose feed-derived excerpt is the
(populated, truthy in Python) one-space string " " is enriched from a page
with no excerpt candidates; line 210 re-runs safe_excerpt over the old
excerpt and stores "", overwriting a populated field with an empty value. -/
theorem claimC9_counterexample :
    aC9.excerpt_en ≠ "" ∧
    fetch_article_page cW envOk aC9 diag0 stEmpty =
      .ok (⟨"s", "Untitled", "http://h/x", "", "", "Untitled. "⟩,
        { diag0 with urls_attempted := 1, articles_fetched := 1 },
        ⟨[("http://h/x", "B")], [("http://h", none)], 1⟩) ∧
    (⟨"s", "Untitled", "http://h/x", "", "", "Untitled. "⟩ : Article).excerpt_en = "" :=
  ⟨by decide, rfl, rfl⟩

/-- The field-update block of _fetch_article_page (fetchers.py lines
207-211), as a function of the parsed page and the incoming article. -/
def enrichFields (pr : Parsed) (a : Article) : Article :=
  { a with
    url := if pr.canonical_url ≠ "" then pr.canonical_url else a.url
    title_en := if pr.title ≠ "" then pr.title else a.title_en
    date := if pr.date ≠ "" then pr.date else a.date
    excerpt_en := safe_excerpt (if pr.excerpt ≠ "" then pr.excerpt else a.excerpt_en) 300
    text_for_nlp := if pr.text ≠ "" then pr.text
      else (if pr.title ≠ "" then pr.title else a.title_en) ++ ". " ++
        safe_excerpt (if pr.excerpt ≠ "" then pr.excerpt else a.excerpt_en) 300 }

theorem enrichFields_url (pr : Parsed) (a : Article) :
    (enrichFields pr a).url =
      if pr.canonical_url ≠ "" then pr.canonical_url else a.url := rfl

theorem enrichFields_title (pr : Parsed) (a : Article) :
    (enrichFields pr a).title_en =
      if pr.title ≠ "" then pr.title else a.title_en := rfl

theorem enrichFields_date (pr : Parsed) (a : Article) :
    (enrichFields pr a).date =
      if pr.date ≠ "" then pr.date else a.date := rfl

theorem enrichFields_excerpt (pr : Parsed) (a : Article) :
    (enrichFields pr a).excerpt_en =
      safe_excerpt (if pr.excerpt ≠ "" then pr.excerpt else a.excerpt_en) 300 := rfl

theorem extract_excerpt_shape (d : Doc) (u : String) :
    (extract_article_metadata d u).excerpt =
      safe_excerpt (if extract_excerpt d ≠ "" then extract_excerpt d
        else d.visible_text) 300 := rfl

set_option maxHeartbeats 1000000 in
/-- C9 (amended): enrichment failure is non-fatal and preserves every
feed-derived field — a robots-disallowed or unfetchable page returns the
candidate unchanged — and on a successful fetch the url, title and date
fields are never overwritten with an empty value; the excerpt field is
never emptied when the old excerpt contains a non-whitespace character
(the unrestricted no-empty-overwrite claim fails for all-whitespace
excerpts, which line 210's re-run of safe_excerpt collapses to ""). -/
theorem claimC9_theorem (c : Collector) (env : Env) (a : Article) (diag : Diag)
    (st : St) :
    (∀ st2, can_fetch env a.url st = .ok (false, st2) →
      fetch_article_page c env a diag st =
        .ok (a, { diag with robots_disallow := diag.robots_disallow + 1 }, st2)) ∧
    (∀ st2 d2 s2, can_fetch env a.url st = .ok (true, st2) →
      fetch_text c env a.url { diag with urls_attempted := diag.urls_attempted + 1 } st2 =
        (none, d2, s2) →
      fetch_article_page c env a diag st = .ok (a, d2, s2)) ∧
    (∀ a2 d2 s2, fetch_article_page c env a diag st = .ok (a2, d2, s2) →
      (a.url ≠ "" → a2.url ≠ "") ∧
      (a.title_en ≠ "" → a2.title_en ≠ "") ∧
      (a.date ≠ "" → a2.date ≠ "") ∧
      ((∃ ch ∈ a.excerpt_en.toList, isPyWs ch = false) → a2.excerpt_en ≠ "")) := by
  refine ⟨?_, ?_, ?_⟩
  · intro st2 hcf
    simp only [fetch_article_page, hcf]
    rw [if_pos (by decide)]
  · intro st2 d2 s2 hcf hft
    simp only [fetch_article_page, hcf]
    rw [if_neg (by decide), hft]
  · intro a2 d2 s2 hres
    cases hcf : can_fetch env a.url st with
    | error e =>
      simp only [fetch_article_page, hcf] at hres
      exact absurd hres (by simp)
    | ok pr =>
      obtain ⟨cf, st2⟩ := pr
      cases cf with
      | false =>
        have hgate : fetch_article_page c env a diag st =
            .ok (a, { diag with robots_disallow := diag.robots_disallow + 1 }, st2) := by
          simp only [fetch_article_page, hcf]
          rw [if_pos (by decide)]
        rw [hgate] at hres
        simp only [Except.ok.injEq, Prod.mk.injEq] at hres
        obtain ⟨ha, -, -⟩ := hres
        subst ha
        exact ⟨id, id, id, fun ⟨ch, hm, _⟩ => ne_empty_of_mem _ ch hm⟩
      | true =>
        rcases hft2 : fetch_text c env a.url
            { diag with urls_attempted := diag.urls_attempted + 1 } st2 with ⟨o, d3, s3⟩
        cases o with
        | none =>
          have hgate : fetch_article_page c env a diag st = .ok (a, d3, s3) := by
            simp only [fetch_article_page, hcf]
            rw [if_neg (by decide), hft2]
          rw [hgate] at hres
          simp only [Except.ok.injEq, Prod.mk.injEq] at hres
          obtain ⟨ha, -, -⟩ := hres
          subst ha
          exact ⟨id, id, id, fun ⟨ch, hm, _⟩ => ne_empty_of_mem _ ch hm⟩
        | some html =>
          have hgate : fetch_article_page c env a diag st =
              .ok (enrichFields (extract_article_metadata (env.doc html) a.url) a,
                (if (enrichFields (extract_article_metadata (env.doc html) a.url) a).excerpt_en = "" ∧
                    (enrichFields (extract_article_metadata (env.doc html) a.url) a).text_for_nlp = "" then
                  { d3 with articles_fetched := d3.articles_fetched + 1, paywall_or_no_content := d3.paywall_or_no_content + 1 }
                 else { d3 with articles_fetched := d3.articles_fetched + 1 }), s3) := by
            simp only [fetch_article_page, hcf]
            rw [if_neg (by decide), hft2]
            rfl
          rw [hgate] at hres
          simp only [Except.ok.injEq, Prod.mk.injEq] at hres
          obtain ⟨ha, -, -⟩ := hres
          subst ha
          refine ⟨?_, ?_, ?_, ?_⟩
          · intro hu
            rw [enrichFields_url]
            by_cases hcu : (extract_article_metadata (env.doc html) a.url).canonical_url ≠ ""
            · rw [if_pos hcu]
              exact hcu
            · rw [if_neg hcu]
              exact hu
          · intro ht
            rw [enrichFields_title]
            by_cases hct : (extract_article_metadata (env.doc html) a.url).title ≠ ""
            · rw [if_pos hct]
              exact hct
            · rw [if_neg hct]
              exact ht
          · intro hd
            rw [enrichFields_date]
            by_cases hcd : (extract_article_metadata (env.doc html) a.url).date ≠ ""
            · rw [if_pos hcd]
              exact hcd
            · rw [if_neg hcd]
              exact hd
          · rintro ⟨ch, hm, hw⟩
            rw [enrichFields_excerpt]
            by_cases hpe : (extract_article_metadata (env.doc html) a.url).excerpt ≠ ""
            · rw [if_pos hpe]
              rw [extract_excerpt_shape] at hpe ⊢
              exact safe_excerpt_ne_empty _ (safe_excerpt_has_content _ hpe)
            · rw [if_neg hpe]
              exact safe_excerpt_ne_empty _ ⟨ch, hm, hw⟩

theorem claimC9_witness :
    fetch_article_page cW envTriv aW diag0 stRob =
      .ok (aW, { diag0 with robots_disallow := diag0.robots_disallow + 1 },
        stRob) :=
  (claimC9_theorem cW envTriv aW diag0 stRob).1 stRob rfl

/-! ## C8: ordered fallback in extract_article_metadata -/

def docW8 : Doc :=
  ⟨none, none, some " ", none, none, none, none, none, none, none, none, ""⟩

/-- C8 counterexample: the social-preview title " " is non-empty, so the
claim makes it the title; the code strips the winning candidate and the
later fallbacks are never revisited, so the stored title is the empty
string — neither the first non-empty candidate nor non-empty at all. -/
theorem claimC8_counterexample :
    docW8.og_title = some " " ∧ " " ≠ "" ∧
    (extract_article_metadata docW8 "http://h/x").title = "" :=
  ⟨rfl, by decide, rfl⟩

/-- A candidate value Python treats as falsy: absent or empty. -/
def pyFalsy (o : Option String) : Prop := o = none ∨ o = some ""

theorem firstTruthy_cons_truthy (v : String) (rest : List (Option String))
    (hv : v ≠ "") : firstTruthy (some v :: rest) = some v := by
  unfold firstTruthy
  rw [if_pos hv]

theorem firstTruthy_cons_falsy (o : Option String) (rest : List (Option String))
    (ho : pyFalsy o) : firstTruthy (o :: rest) = firstTruthy rest := by
  rcases ho with rfl | rfl
  · rfl
  · simp only [firstTruthy]
    rw [if_neg (fun h => h rfl)]

theorem title_of_firstTruthy (d : Doc) (v : String)
    (h : firstTruthy [d.og_title, d.twitter_title, d.h1_text, d.title_text] = some v) :
    extract_title d = pyStripS v := by
  unfold extract_title
  rw [h]

theorem title_of_firstTruthy_none (d : Doc)
    (h : firstTruthy [d.og_title, d.twitter_title, d.h1_text, d.title_text] = none) :
    extract_title d = "Untitled" := by
  unfold extract_title
  rw [h]

/-- C8 (amended): the title resolves by ordered fallback over the four
candidates — og:title, twitter:title, first heading, document title — where
the first truthy (present and non-empty) candidate wins and is stripped,
with the literal "Untitled" when all are falsy; the stripped winner is
non-empty whenever it contains a non-whitespace character (an
all-whitespace winner strips to "", refuting the unconditional non-empty
guarantee); the canonical URL falls back to the requested URL and is
non-empty whenever the requested URL is. -/
theorem claimC8_theorem (d : Doc) (u : String) :
    (∀ v, d.og_title = some v → v ≠ "" →
      (extract_article_metadata d u).title = pyStripS v) ∧
    (pyFalsy d.og_title → ∀ v, d.twitter_title = some v → v ≠ "" →
      (extract_article_metadata d u).title = pyStripS v) ∧
    (pyFalsy d.og_title → pyFalsy d.twitter_title → ∀ v, d.h1_text = some v →
      v ≠ "" → (extract_article_metadata d u).title = pyStripS v) ∧
    (pyFalsy d.og_title → pyFalsy d.twitter_title → pyFalsy d.h1_text → ∀ v,
      d.title_text = some v → v ≠ "" →
      (extract_article_metadata d u).title = pyStripS v) ∧
    (pyFalsy d.og_title → pyFalsy d.twitter_title → pyFalsy d.h1_text →
      pyFalsy d.title_text → (extract_article_metadata d u).title = "Untitled") ∧
    (∀ v, firstTruthy [d.og_title, d.twitter_title, d.h1_text, d.title_text] = some v →
      (∃ ch ∈ v.toList, isPyWs ch = false) →
      (extract_article_metadata d u).title ≠ "") ∧
    (u ≠ "" → (extract_article_metadata d u).canonical_url ≠ "") ∧
    (pyFalsy d.canonical_href → pyFalsy d.og_url →
      (extract_article_metadata d u).canonical_url = u) := by
  refine ⟨?_, ?_, ?_, ?_, ?_, ?_, ?_, ?_⟩
  · intro v hv hne
    refine title_of_firstTruthy d v ?_
    rw [hv, firstTruthy_cons_truthy v _ hne]
  · intro h1 v hv hne
    refine title_of_firstTruthy d v ?_
    rw [firstTruthy_cons_falsy _ _ h1, hv, firstTruthy_cons_truthy v _ hne]
  · intro h1 h2 v hv hne
    refine title_of_firstTruthy d v ?_
    rw [firstTruthy_cons_falsy _ _ h1, firstTruthy_cons_falsy _ _ h2, hv,
      firstTruthy_cons_truthy v _ hne]
  · intro h1 h2 h3 v hv hne
    refine title_of_firstTruthy d v ?_
    rw [firstTruthy_cons_falsy _ _ h1, firstTruthy_cons_falsy _ _ h2,
      firstTruthy_cons_falsy _ _ h3, hv, firstTruthy_cons_truthy v _ hne]
  · intro h1 h2 h3 h4
    refine title_of_firstTruthy_none d ?_
    rw [firstTruthy_cons_falsy _ _ h1, firstTruthy_cons_falsy _ _ h2,
      firstTruthy_cons_falsy _ _ h3, firstTruthy_cons_falsy _ _ h4]
    rfl
  · rintro v hv ⟨ch, hm, hw⟩
    have ht : (extract_article_metadata d u).title = pyStripS v :=
      title_of_firstTruthy d v hv
    rw [ht]
    exact pyStripS_ne_empty v ch hm hw
  · intro hu
    show (match extract_canonical_url d with
          | some v => if v ≠ "" then v else u
          | none => u) ≠ ""
    cases hc : extract_canonical_url d with
    | none =>
      exact hu
    | some v =>
      show (if v ≠ "" then v else u) ≠ ""
      by_cases hv : v ≠ ""
      · rw [if_pos hv]
        exact hv
      · rw [if_neg hv]
        exact hu
  · intro h1 h2
    have hfc : firstTruthy [d.canonical_href, d.og_url] = none := by
      rw [firstTruthy_cons_falsy _ _ h1, firstTruthy_cons_falsy _ _ h2]
      rfl
    have hcn : extract_canonical_url d = none := by
      unfold extract_canonical_url
      rw [hfc]
      rfl
    show (match extract_canonical_url d with
          | some v => if v ≠ "" then v else u
          | none => u) = u
    rw [hcn]

theorem claimC8_witness :
    (extract_article_metadata docTriv "http://h/x").canonical_url ≠ "" ∧
    (extract_article_metadata docTriv "http://h/x").title = "Untitled" :=
  ⟨(claimC8_theorem docTriv "http://h/x").2.2.2.2.2.2.1 (by decide),
   (claimC8_theorem docTriv "http://h/x").2.2.2.2.1 (Or.inl rfl) (Or.inl rfl)
     (Or.inl rfl) (Or.inl rfl)⟩

/-! ## C4: first-occurrence deduplication and the deduped counter -/

/-- The full inventory of a successful _collect_source dedupe loop: it
agrees with utils.dedupe_articles on the kept list; the deduped counter
absorbs exactly one increment per discarded duplicate and no other
diagnostic changes; the kept list is a sublist of the input (articles are
never merged) with pairwise-distinct canonical keys none of which were
seen; and the first input occurrence of any unseen key is kept. -/
theorem dedupe_pass_spec : ∀ (collected : List Article) (seen : List String)
    (diag : Diag) (out : List Article) (seen2 : List String) (d2 : Diag),
    dedupe_pass collected seen diag = .ok (out, seen2, d2) →
    dedupeAux seen collected = .ok out ∧
    d2.deduped + out.length = diag.deduped + collected.length ∧
    d2 = { diag with deduped := d2.deduped } ∧
    out.Sublist collected ∧
    (∀ b ∈ out, ∃ k2, canonicalize_url b.url = .ok k2 ∧ k2 ∉ seen) ∧
    List.Pairwise (fun x y => canonicalize_url x.url ≠ canonicalize_url y.url) out ∧
    (∀ pre a0 post, collected = pre ++ a0 :: post →
      (∀ k, canonicalize_url a0.url = .ok k → k ∉ seen) →
      (∀ b, b ∈ pre → canonicalize_url b.url ≠ canonicalize_url a0.url) →
      a0 ∈ out) := by
  intro collected
  induction collected with
  | nil =>
    intro seen diag out seen2 d2 h
    simp only [dedupe_pass] at h
    simp only [Except.ok.injEq, Prod.mk.injEq] at h
    obtain ⟨h1, h2, h3⟩ := h
    subst h1
    subst h2
    subst h3
    refine ⟨rfl, rfl, rfl, List.nil_sublist _, ?_, List.Pairwise.nil, ?_⟩
    · intro b hb
      simp at hb
    · intro pre a0 post heq
      exact absurd heq (by cases pre <;> simp)
  | cons a rest ih =>
    intro seen diag out seen2 d2 h
    simp only [dedupe_pass] at h
    cases hk : canonicalize_url a.url with
    | error e =>
      rw [hk] at h
      simp at h
    | ok key =>
      simp only [hk] at h
      by_cases hmem : key ∈ seen
      · rw [if_pos hmem] at h
        obtain ⟨ih1, ih2, ih3, ih4, ih5, ih6, ih7⟩ :=
          ih seen { diag with deduped := diag.deduped + 1 } out seen2 d2 h
        have ih2a : d2.deduped + out.length = diag.deduped + 1 + rest.length := ih2
        have ih3a : d2 = { diag with deduped := d2.deduped } := ih3
        refine ⟨?_, ?_, ih3a, ih4.cons a, ih5, ih6, ?_⟩
        · simp only [dedupeAux, hk]
          rw [if_pos hmem]
          exact ih1
        · simp only [List.length_cons]
          omega
        · intro pre a0 post heq hseen hpre
          cases pre with
          | nil =>
            simp only [List.nil_append] at heq
            obtain ⟨rfl, -⟩ : a0 = a ∧ post = rest := by
              cases heq
              exact ⟨rfl, rfl⟩
            exact absurd (hseen key hk) (fun hn => hn hmem)
          | cons b pre2 =>
            have heq2 : a = b ∧ rest = pre2 ++ a0 :: post := by
              rw [List.cons_append] at heq
              cases heq
              exact ⟨rfl, rfl⟩
            obtain ⟨rfl, hrest⟩ := heq2
            exact ih7 pre2 a0 post hrest hseen
              (fun b2 hb2 => hpre b2 (List.mem_cons_of_mem _ hb2))
      · rw [if_neg hmem] at h
        cases hrec : dedupe_pass rest (key :: seen) diag with
        | error e =>
          rw [hrec] at h
          simp at h
        | ok trip =>
          obtain ⟨out2, seen3, d3⟩ := trip
          rw [hrec] at h
          simp only [Except.ok.injEq, Prod.mk.injEq] at h
          obtain ⟨h1, h2, h3⟩ := h
          subst h1
          subst h2
          subst h3
          obtain ⟨ih1, ih2, ih3, ih4, ih5, ih6, ih7⟩ :=
            ih (key :: seen) diag out2 seen3 d3 hrec
          refine ⟨?_, ?_, ih3, ih4.cons₂ a, ?_, ?_, ?_⟩
          · simp only [dedupeAux, hk]
            rw [if_neg hmem, ih1]
          · simp only [List.length_cons]
            omega
          · intro b hb
            rcases List.mem_cons.mp hb with rfl | hb2
            · exact ⟨key, hk, hmem⟩
            · obtain ⟨k2, hbk, hbn⟩ := ih5 b hb2
              exact ⟨k2, hbk, fun hn => hbn (List.mem_cons_of_mem _ hn)⟩
          · refine List.Pairwise.cons ?_ ih6
            intro b hb
            obtain ⟨k2, hbk, hbn⟩ := ih5 b hb
            rw [hk, hbk]
            intro heq2
            have : key = k2 := by
              injection heq2
            exact hbn (this ▸ List.mem_cons_self _ _)
          · intro pre a0 post heq hseen hpre
            cases pre with
            | nil =>
              simp only [List.nil_append] at heq
              obtain ⟨rfl, -⟩ : a0 = a ∧ post = rest := by
                cases heq
                exact ⟨rfl, rfl⟩
              exact List.mem_cons_self _ _
            | cons b pre2 =>
              have heq2 : a = b ∧ rest = pre2 ++ a0 :: post := by
                rw [List.cons_append] at heq
                cases heq
                exact ⟨rfl, rfl⟩
              obtain ⟨rfl, hrest⟩ := heq2
              refine List.mem_cons_of_mem _ (ih7 pre2 a0 post hrest ?_
                (fun b2 hb2 => hpre b2 (List.mem_cons_of_mem _ hb2)))
              intro k hk0 hkmem
              rcases List.mem_cons.mp hkmem with rfl | hkseen
              · exact hpre a (List.mem_cons_self _ _) (by rw [hk, hk0])
              · exact hseen k hk0 hkseen

def aX : Article := ⟨"Music Week", "T1", "http://E.com/x", "", "", ""⟩

def aY : Article := ⟨"Music Business Worldwide", "T2", "http://e.com/x/", "", "", ""⟩

/-- C4 counterexample: two sources contribute the same canonical URL; the
cross-source merge discards the later duplicate but utils.dedupe_articles
touches no diagnostics, so no deduped counter is incremented. -/
theorem claimC4_counterexample :
    canonicalize_url aX.url = canonicalize_url aY.url ∧ aX ≠ aY ∧
    main_merge_stage [("Music Week", [aX]), ("Music Business Worldwide", [aY])]
        [("Music Week", diag0), ("Music Business Worldwide", diag0)] =
      .ok ([aX], [("Music Week", diag0), ("Music Business Worldwide", diag0)]) ∧
    diag0.deduped = 0 :=
  ⟨rfl, by decide, rfl, rfl⟩

/-- C4 (amended): within one source, the _collect_source dedupe loop keeps
exactly the first occurrence of each unseen canonical URL — later
duplicates are discarded unmerged and each increments deduped by exactly
one, with no other diagnostic change — and it computes the same kept list
as utils.dedupe_articles; the final cross-source merge applies
dedupe_articles to the flattened lists and passes every per-source
diagnostics record through unchanged, so cross-source duplicates do not
increment any deduped counter. -/
theorem claimC4_theorem (collected : List Article) (seen : List String)
    (diag : Diag) (out : List Article) (seen2 : List String) (d2 : Diag)
    (h : dedupe_pass collected seen diag = .ok (out, seen2, d2)) :
    (dedupeAux seen collected = .ok out ∧
      d2.deduped + out.length = diag.deduped + collected.length ∧
      d2 = { diag with deduped := d2.deduped } ∧
      out.Sublist collected ∧
      List.Pairwise (fun x y => canonicalize_url x.url ≠ canonicalize_url y.url) out ∧
      (∀ pre a0 post, collected = pre ++ a0 :: post →
        (∀ k, canonicalize_url a0.url = .ok k → k ∉ seen) →
        (∀ b, b ∈ pre → canonicalize_url b.url ≠ canonicalize_url a0.url) →
        a0 ∈ out)) ∧
    (∀ (by_source : List (String × List Article)) (diags : List (String × Diag))
        (arts : List Article) (diags2 : List (String × Diag)),
      main_merge_stage by_source diags = .ok (arts, diags2) →
      diags2 = diags ∧ dedupe_articles (by_source.map Prod.snd).flatten = .ok arts) := by
  obtain ⟨c1, c2, c3, c4, c5, c6, c7⟩ := dedupe_pass_spec collected seen diag out seen2 d2 h
  refine ⟨⟨c1, c2, c3, c4, c6, c7⟩, ?_⟩
  intro by_source diags arts diags2 hm
  unfold main_merge_stage at hm
  cases hda : dedupe_articles (by_source.map Prod.snd).flatten with
  | error e =>
    rw [hda] at hm
    simp at hm
  | ok arts2 =>
    rw [hda] at hm
    simp only [Except.ok.injEq, Prod.mk.injEq] at hm
    obtain ⟨h1, h2⟩ := hm
    subst h1
    subst h2
    exact ⟨rfl, rfl⟩

theorem claimC4_witness :
    dedupeAux [] [aX, aY] = .ok [aX] ∧
    ({ diag0 with deduped := 1 } : Diag).deduped + [aX].length =
      diag0.deduped + [aX, aY].length :=
  ⟨(claimC4_theorem [aX, aY] [] diag0 [aX] ["http://e.com/x"]
      { diag0 with deduped := 1 } (by decide)).1.1,
   (claimC4_theorem [aX, aY] [] diag0 [aX] ["http://e.com/x"]
      { diag0 with deduped := 1 } (by decide)).1.2.1⟩

/-! ## C1: behaviour of _collect_source when every fetch fails -/

theorem lookupStr_nil {β : Type} (k : String) :
    lookupStr k ([] : List (String × β)) = none := rfl

theorem fetch_text_fail (c : Collector) (env : Env) (url : String)
    (diag : Diag) (st : St) (h1 : env.http url = .exn)
    (h2 : lookupStr url st.cache = none) :
    fetch_text c env url diag st =
      (none, { diag with request_failed := diag.request_failed + 1 },
        { st with netCalls := st.netCalls + 1 }) := by
  have hcond : ¬ (c.useCache = true ∧ (lookupStr url st.cache).isSome = true) := by
    intro hh
    rw [h2] at hh
    cases hh.2
  simp only [fetch_text, if_neg hcond, h1]

theorem collect_from_rss_fail (c : Collector) (env : Env) (source rss_url : String)
    (seen : List String) (diag : Diag) (st : St)
    (hhttp : ∀ u, env.http u = .exn) (hcache : st.cache = [])
    (hp : rss_url ≠ "" → ∃ r2, pyUrlsplit rss_url.toList = .ok r2) :
    ∃ d2 s2, collect_from_rss c env source rss_url seen diag st =
      .ok ([], d2, s2) ∧ s2.cache = [] := by
  by_cases he : rss_url = ""
  · refine ⟨diag, st, ?_, hcache⟩
    simp only [collect_from_rss, if_pos he]
  · obtain ⟨r2, hp2⟩ := hp he
    obtain ⟨st2, hcf, hn, hcc⟩ := can_fetch_ok env rss_url st r2 hp2
    cases hbv : (match robotsFor env st ⟨r2.scheme ++ (':' :: '/' :: '/' :: r2.netloc)⟩ with
        | none => true
        | some f => f rss_url) with
    | false =>
      rw [hbv] at hcf
      refine ⟨{ diag with robots_disallow := diag.robots_disallow + 1 }, st2, ?_,
        hcc.trans hcache⟩
      simp only [collect_from_rss, if_neg he, hcf]
      rw [if_pos (by decide)]
    | true =>
      rw [hbv] at hcf
      have h2 : lookupStr rss_url st2.cache = none := by
        rw [hcc, hcache]
        rfl
      have hft := fetch_text_fail c env rss_url diag st2 (hhttp rss_url) h2
      refine ⟨{ diag with request_failed := diag.request_failed + 1 },
        { st2 with netCalls := st2.netCalls + 1 }, ?_, hcc.trans hcache⟩
      simp only [collect_from_rss, if_neg he, hcf]
      rw [if_neg (by decide), hft]

theorem collect_from_listing_fail (c : Collector) (env : Env)
    (source listing_url : String) (seen : List String) (diag : Diag) (st : St)
    (hhttp : ∀ u, env.http u = .exn) (hcache : st.cache = [])
    (rl : SplitRes) (hl : pyUrlsplit listing_url.toList = .ok rl) :
    ∃ d2 s2, collect_from_listing c env source listing_url seen diag st =
      .ok ([], d2, s2) ∧ s2.cache = [] := by
  obtain ⟨st2, hcf, hn, hcc⟩ := can_fetch_ok env listing_url st rl hl
  cases hbv : (match robotsFor env st ⟨rl.scheme ++ (':' :: '/' :: '/' :: rl.netloc)⟩ with
      | none => true
      | some f => f listing_url) with
  | false =>
    rw [hbv] at hcf
    refine ⟨{ diag with robots_disallow := diag.robots_disallow + 1 }, st2, ?_,
      hcc.trans hcache⟩
    simp only [collect_from_listing, hcf]
    rw [if_pos (by decide)]
  | true =>
    rw [hbv] at hcf
    have h2 : lookupStr listing_url st2.cache = none := by
      rw [hcc, hcache]
      rfl
    have hft := fetch_text_fail c env listing_url diag st2 (hhttp listing_url) h2
    refine ⟨{ diag with request_failed := diag.request_failed + 1 },
      { st2 with netCalls := st2.netCalls + 1 }, ?_, hcc.trans hcache⟩
    simp only [collect_from_listing, hcf]
    rw [if_neg (by decide), hft]

theorem finalize_source_nil (c : Collector) (seen : List String) (d : Diag)
    (s : St) :
    finalize_source c [] seen d s = .ok ([], { d with articles_kept := 0 }, s) := by
  simp only [finalize_source, dedupe_pass]
  rw [List.take_nil]
  rfl

/-- C1 counterexample: _can_fetch calls urlparse outside any try block, so
a listing URL with a mismatched bracket makes urlparse raise ValueError and
the exception propagates out of _collect_source instead of yielding an
empty list plus diagnostics. -/
theorem claimC1_counterexample :
    collect_source cW envTriv "S" ⟨none, "http://[x", none⟩ stEmpty =
      .error () :=
  rfl

set_option maxHeartbeats 1000000 in
/-- C1 (amended): for a source configuration whose URLs urlparse accepts,
a fully failing source — every network request raises and nothing is
cached — never raises: _collect_source returns an empty article list
together with a complete diagnostics record showing zero articles kept.
For malformed configured URLs the unrestricted claim fails, since
urlparse's ValueError escapes _can_fetch (see the counterexample). -/
theorem claimC1_theorem (c : Collector) (env : Env) (source : String)
    (cfg : Cfg) (st : St) (rl : SplitRes)
    (hhttp : ∀ u, env.http u = .exn)
    (hcache : st.cache = [])
    (hl : pyUrlsplit cfg.listing_url.toList = .ok rl)
    (hru : ∀ s, cfg.rss_url = some s → s ≠ "" →
      ∃ r2, pyUrlsplit s.toList = .ok r2) :
    ∃ diag2 st2, collect_source c env source cfg st = .ok ([], diag2, st2) ∧
      diag2.articles_kept = 0 := by
  have hrp : (cfg.rss_url.getD "") ≠ "" →
      ∃ r2, pyUrlsplit (cfg.rss_url.getD "").toList = .ok r2 := by
    intro hne
    cases hcr : cfg.rss_url with
    | none =>
      rw [hcr] at hne
      exact absurd rfl hne
    | some s =>
      rw [hcr] at hne
      exact hru s hcr hne
  by_cases hmode : cfg.mode = some "rss_primary"
  · obtain ⟨d2, s2, hrss, hc2⟩ := collect_from_rss_fail c env source
      (cfg.rss_url.getD "") [] diag0 st hhttp hcache hrp
    simp only [collect_source, if_pos hmode, hrss]
    by_cases hmax : ([] : List Article).length < c.maxPerSource
    · obtain ⟨d3, s3, hlist, hc3⟩ := collect_from_listing_fail c env source
        cfg.listing_url [] d2 s2 hhttp hc2 rl hl
      rw [if_pos hmax, hlist]
      refine ⟨{ d3 with articles_kept := 0 }, s3, ?_, rfl⟩
      simp only [List.nil_append]
      exact finalize_source_nil c [] d3 s3
    · rw [if_neg hmax]
      refine ⟨{ d2 with articles_kept := 0 }, s2, ?_, rfl⟩
      simp only [List.nil_append]
      exact finalize_source_nil c [] d2 s2
  · obtain ⟨d2, s2, hlist, hc2⟩ := collect_from_listing_fail c env source
      cfg.listing_url [] diag0 st hhttp hcache rl hl
    simp only [collect_source, if_neg hmode, hlist]
    by_cases hsec : ([] : List Article).length < c.maxPerSource ∧
        (cfg.rss_url.getD "") ≠ ""
    · obtain ⟨d3, s3, hrss, hc3⟩ := collect_from_rss_fail c env source
        (cfg.rss_url.getD "") [] d2 s2 hhttp hc2 hrp
      rw [if_pos hsec, hrss]
      refine ⟨{ d3 with articles_kept := 0 }, s3, ?_, rfl⟩
      simp only [List.nil_append]
      exact finalize_source_nil c [] d3 s3
    · rw [if_neg hsec]
      refine ⟨{ d2 with articles_kept := 0 }, s2, ?_, rfl⟩
      simp only [List.nil_append]
      exact finalize_source_nil c [] d2 s2

theorem claimC1_witness :
    ∃ diag2 st2, collect_source cW envTriv "Music Week"
        ⟨some "html_primary", "https://www.musicweek.com/news", none⟩ stEmpty =
      .ok ([], diag2, st2) ∧ diag2.articles_kept = 0 :=
  claimC1_theorem cW envTriv "Music Week"
    ⟨some "html_primary", "https://www.musicweek.com/news", none⟩ stEmpty
    ⟨"https".toList, "www.musicweek.com".toList, "/news".toList, [], []⟩
    (fun _ => rfl) rfl (by decide) (fun s hs => by cases hs)
